import Mathlib

/-!
Shallow embedding of `TwoLevelHashTable`
(`src/dbms/include/DB/Common/HashTable/TwoLevelHashTable.h`).

The two-level (sharded) hash table owns `NUM_BUCKETS = 2^BITS_FOR_BUCKET`
single-level shard tables (`Impl impls[NUM_BUCKETS]`) and routes every key by
the high bits of its hash (`getBucketFromHash`).  The single-shard table
(`HashTable` from `HashTable.h`) is a collaborator whose source is not part of
the repository excerpt, so it is modelled here from the specification's
description of the required shard capability: a flat table storing the
sentinel ("zero"-key) entry in a special slot that is iterated first, plus a
list of non-zero-key cells in insertion order.

Keys, mapped values and hash values are modelled as `Nat` (the C++ code is
templated over `Key`/`Cell` and uses `size_t` hashes); the sentinel key is `0`.
The hash function is an explicit parameter `h : Nat → Nat`, mirroring the
`Hash` template parameter.  Byte streams are modelled as lists of abstract
tokens: a shard payload is a size token followed by cell tokens, and the text
serializer's single-character delimiter is a character token.
-/

namespace TwoLevelSpec

/-- Abstract serialization token: `nat` a serialized number (the shard's size
field), `cell` a serialized key/value cell, `ch` a single raw character (used
only for the text format's delimiter). -/
inductive Token where
  | nat (n : Nat)
  | cell (k v : Nat)
  | ch (c : Char)
deriving DecidableEq, Repr

/-- Whether a token is the comma delimiter character. -/
def Token.isComma : Token → Bool
  | .ch c => c == ','
  | _ => false

/-- Modelled from the spec: the single-shard hash-table collaborator
(`HashTable` of `HashTable.h`, not present under `src/`).  The spec requires a
flat table with a designated sentinel ("zero") key "typically stored and
detected specially by the shard-table capability itself"; the shard stores the
sentinel entry in a dedicated slot (`hasZero`/`zeroVal`) and all other entries
as a list of cells.  Iteration yields the sentinel entry first (the source
comment in the converting constructor records that the zero key, stored
separately, comes first during iteration). -/
structure Impl where
  hasZero : Bool := false
  zeroVal : Nat := 0
  cells : List (Nat × Nat) := []
deriving DecidableEq, Repr

instance : Inhabited Impl := ⟨{}⟩

/-- Modelled from the spec: the shard's size query (number of stored entries,
counting the sentinel slot when occupied). -/
def Impl.size (t : Impl) : Nat :=
  (if t.hasZero then 1 else 0) + t.cells.length

/-- Modelled from the spec: the shard's emptiness query. -/
def Impl.empty (t : Impl) : Bool :=
  !t.hasZero && t.cells.isEmpty

/-- Modelled from the spec: the shard's iteration sequence — the sentinel
entry (if present) first, then the non-zero cells in storage order. -/
def Impl.toList (t : Impl) : List (Nat × Nat) :=
  (if t.hasZero then [(0, t.zeroVal)] else []) ++ t.cells

/-- Index of the first cell with key `k` in a cell list. -/
def cellsFindIdx (k : Nat) : List (Nat × Nat) → Option Nat
  | [] => none
  | c :: l => if c.1 = k then some 0 else (cellsFindIdx k l).map (· + 1)

/-- Modelled from the spec: the shard's lookup, returned as the index of the
found cell in the shard's iteration sequence (`none` plays the role of the
shard's own end iterator). -/
def Impl.findIdx (t : Impl) (k : Nat) : Option Nat :=
  if k = 0 then
    if t.hasZero then some 0 else none
  else
    match cellsFindIdx k t.cells with
    | some j => some ((if t.hasZero then 1 else 0) + j)
    | none => none

/-- Modelled from the spec: the shard's reserve-or-locate primitive
(`HashTable::emplace`): reserve a slot for the key if absent, report whether a
new slot was created.  A freshly reserved non-zero slot carries a placeholder
mapped value `0` until the caller installs the payload. -/
def Impl.emplace (t : Impl) (k : Nat) : Impl × Bool :=
  if k = 0 then
    if t.hasZero then (t, false) else ({ t with hasZero := true }, true)
  else
    if t.cells.any (fun c => c.1 == k) then (t, false)
    else ({ t with cells := t.cells ++ [(k, 0)] }, true)

/-- Modelled from the spec: installing a mapped payload into the slot reserved
for key `k` (`Cell::setMapped` reached through the returned position). -/
def Impl.setMapped (t : Impl) (k v : Nat) : Impl :=
  if k = 0 then { t with zeroVal := v }
  else { t with cells := t.cells.map (fun c => if c.1 == k then (k, v) else c) }

/-- Modelled from the spec: the shard's uniqueness-unchecked fast-path insert
of a known-non-zero, known-fresh cell (`HashTable::insertUniqueNonZero`). -/
def Impl.insertUniqueNonZero (t : Impl) (c : Nat × Nat) : Impl :=
  { t with cells := t.cells ++ [c] }

/-- Modelled from the spec: insert-or-keep of one deserialized cell, used by
the shard's stream readers (the sentinel key goes to the dedicated slot). -/
def Impl.insertCell (t : Impl) (c : Nat × Nat) : Impl :=
  if c.1 = 0 then
    if t.hasZero then t else { t with hasZero := true, zeroVal := c.2 }
  else
    if t.cells.any (fun d => d.1 == c.1) then t
    else { t with cells := t.cells ++ [c] }

/-- Modelled from the spec: the shard's binary serialization of its full
contents — its size followed by its cells in iteration order. -/
def Impl.write (t : Impl) : List Token :=
  Token.nat t.size :: t.toList.map (fun c => Token.cell c.1 c.2)

/-- Modelled from the spec: the shard's text serialization; in the token model
it carries the same information as the binary form (the shard's concrete
character-level format is internal to the collaborator). -/
def Impl.writeText (t : Impl) : List Token :=
  Token.nat t.size :: t.toList.map (fun c => Token.cell c.1 c.2)

/-- Modelled from the spec: reading `n` serialized cells into a shard. -/
def Impl.readCells : Nat → Impl → List Token → Option (Impl × List Token)
  | 0, t, s => some (t, s)
  | n + 1, t, Token.cell k v :: s => Impl.readCells n (t.insertCell (k, v)) s
  | _ + 1, _, _ => none

/-- Modelled from the spec: the shard's binary reader — reset the shard, read
the size, then read and insert that many cells. -/
def Impl.read (_t : Impl) (s : List Token) : Option (Impl × List Token) :=
  match s with
  | Token.nat n :: s' => Impl.readCells n {} s'
  | _ => none

/-- Modelled from the spec: the shard's text reader (same token-level format
as the binary reader in this model). -/
def Impl.readText (_t : Impl) (s : List Token) : Option (Impl × List Token) :=
  match s with
  | Token.nat n :: s' => Impl.readCells n {} s'
  | _ => none

/-- Well-formedness of a shard: every stored cell has a non-zero key (the
sentinel lives only in the dedicated slot) and cell keys are pairwise
distinct (the shard's own uniqueness guarantee). -/
def Impl.WF (t : Impl) : Prop :=
  (∀ c ∈ t.cells, c.1 ≠ 0) ∧ (t.cells.map Prod.fst).Nodup

instance (t : Impl) : Decidable t.WF := by
  unfold Impl.WF; infer_instance

/-- Modelled from the spec: the stream reader's single-character
assert-and-consume primitive (`DB::assertChar`): consume `c` from the front of
the stream, failing if the stream does not start with exactly that
character. -/
def assertChar (c : Char) (s : List Token) : Option (List Token) :=
  match s with
  | Token.ch c' :: s' => if c' = c then some s' else none
  | _ => none

/-! ## The two-level table itself (translated from `TwoLevelHashTable.h`) -/

/-- NUM_BUCKETS = `1 << BITS_FOR_BUCKET`. -/
def numBuckets (B : Nat) : Nat := 2 ^ B

/-- MAX_BUCKET = `NUM_BUCKETS - 1`. -/
def maxBucket (B : Nat) : Nat := numBuckets B - 1

/-- `getBucketFromHash`: `(hash_value >> (32 - BITS_FOR_BUCKET)) & MAX_BUCKET`. -/
def getBucketFromHash (B : Nat) (hashValue : Nat) : Nat :=
  (hashValue >>> (32 - B)) &&& maxBucket B

/-- The two-level table: a fixed array `Impl impls[NUM_BUCKETS]` of shard
tables, modelled as a list (its length is `numBuckets B` for a table built by
the translated constructors). `BITS_FOR_BUCKET` is passed to each operation
explicitly, mirroring the class template parameter. -/
structure TwoLevelHashTable where
  impls : List Impl
deriving DecidableEq, Repr

namespace TwoLevelHashTable

/-- `impls[i]` (out-of-range reads yield an empty shard; they never occur for
a table of the invariant length). -/
def bucket (t : TwoLevelHashTable) (i : Nat) : Impl :=
  t.impls.getD i {}

/-- Replace shard `i`. -/
def setBucket (t : TwoLevelHashTable) (i : Nat) (impl : Impl) : TwoLevelHashTable :=
  ⟨t.impls.set i impl⟩

/-- The default-constructed table: `NUM_BUCKETS` empty shards. -/
def emptyTable (B : Nat) : TwoLevelHashTable :=
  ⟨List.replicate (numBuckets B) {}⟩

/-- `size()`: sum of the shard sizes over buckets `0 .. NUM_BUCKETS-1`. -/
def size (B : Nat) (t : TwoLevelHashTable) : Nat :=
  ((List.range (numBuckets B)).map (fun i => (t.bucket i).size)).sum

/-- `empty()`: true iff every shard reports empty. -/
def empty (B : Nat) (t : TwoLevelHashTable) : Bool :=
  (List.range (numBuckets B)).all (fun i => (t.bucket i).empty)

/-- All entries of the table, shard by shard in ascending bucket order, each
shard in its own iteration order. -/
def entriesList (B : Nat) (t : TwoLevelHashTable) : List (Nat × Nat) :=
  (List.range (numBuckets B)).flatMap (fun i => (t.bucket i).toList)

/-- Structural worker for the skip-empty scan: `fuel` counts the buckets left
before `NUM_BUCKETS` is reached (the loop maintains `b + fuel = NUM_BUCKETS`). -/
def scanNonEmptyAux (t : TwoLevelHashTable) : Nat → Nat → Nat
  | 0, b => b
  | fuel + 1, b => if (t.bucket b).empty then scanNonEmptyAux t fuel (b + 1) else b

/-- First bucket index `≥ b` whose shard is non-empty, or `NUM_BUCKETS` if
none exists: the `while (bucket != NUM_BUCKETS && impls[bucket].empty()) ++bucket`
loop of `beginOfNextNonEmptyBucket` (the loop is only reached with
`bucket ≤ NUM_BUCKETS`, where `bucket ≠ NUM_BUCKETS ↔ bucket < NUM_BUCKETS`). -/
def scanNonEmpty (B : Nat) (t : TwoLevelHashTable) (b : Nat) : Nat :=
  scanNonEmptyAux t (numBuckets B - b) b

/-- `beginOfNextNonEmptyBucket`: advance `bucket` past empty shards; land on
the first non-empty shard's begin position, or, when every remaining shard is
empty, on `(MAX_BUCKET, impls[MAX_BUCKET].end())`.  The inner iterator is
modelled as an index into the shard's iteration sequence (`0` = the shard's
begin, `(t.bucket i).size` = the shard's end). -/
def beginOfNextNonEmptyBucket (B : Nat) (t : TwoLevelHashTable) (b : Nat) : Nat × Nat :=
  let b' := scanNonEmpty B t b
  if b' ≠ numBuckets B then (b', 0)
  else (maxBucket B, (t.bucket (maxBucket B)).size)

end TwoLevelHashTable

/-- The composite cursor (`TwoLevelHashTable::iterator`): the owning container,
the current bucket index, and the inner cursor within that bucket (an index
into the shard's iteration sequence). -/
structure Iter where
  container : TwoLevelHashTable
  bucket : Nat
  inner : Nat
deriving Repr

/-- `iterator::operator==`: compares the bucket index and the inner cursor
only; the `container` field does not participate. -/
def iterEq (a b : Iter) : Bool :=
  a.bucket == b.bucket && a.inner == b.inner

/-- The composite const cursor (`TwoLevelHashTable::const_iterator`); same
fields as `Iter`. -/
structure CIter where
  container : TwoLevelHashTable
  bucket : Nat
  inner : Nat
deriving Repr

/-- `const_iterator::operator==`: compares the bucket index and the inner
cursor only; the `container` field does not participate. -/
def citerEq (a b : CIter) : Bool :=
  a.bucket == b.bucket && a.inner == b.inner

namespace TwoLevelHashTable

/-- `begin()`: scan forward from bucket 0 for the first non-empty shard. -/
def begin (B : Nat) (t : TwoLevelHashTable) : Iter :=
  let p := beginOfNextNonEmptyBucket B t 0
  ⟨t, p.1, p.2⟩

/-- `end()`: the canonical sentinel `(MAX_BUCKET, impls[MAX_BUCKET].end())`. -/
def endIter (B : Nat) (t : TwoLevelHashTable) : Iter :=
  ⟨t, maxBucket B, (t.bucket (maxBucket B)).size⟩

/-- `iterator::operator++`: advance the inner cursor; when it reaches the
current shard's end, move to the next bucket and re-run the skip-empty scan. -/
def nextIter (B : Nat) (t : TwoLevelHashTable) (it : Iter) : Iter :=
  let inner' := it.inner + 1
  if inner' = (t.bucket it.bucket).size then
    let p := beginOfNextNonEmptyBucket B t (it.bucket + 1)
    ⟨t, p.1, p.2⟩
  else
    ⟨t, it.bucket, inner'⟩

/-- `iterator::operator*`: the entry under the cursor. -/
def getIter (t : TwoLevelHashTable) (it : Iter) : Nat × Nat :=
  (t.bucket it.bucket).toList.getD it.inner (0, 0)

/-- Fuel-bounded traversal: repeatedly dereference and advance the cursor
until it compares equal (by `iterator::operator==`) to `end()`. -/
def traverseFrom (B : Nat) (t : TwoLevelHashTable) : Nat → Iter → List (Nat × Nat)
  | 0, _ => []
  | fuel + 1, it =>
    if iterEq it (endIter B t) then []
    else getIter t it :: traverseFrom B t fuel (nextIter B t it)

/-- `emplace(x, it, inserted, hash_value)`: route by the precomputed hash,
forward to the shard's reserve-or-locate, and build the composite cursor over
the reserved position.  Returns (updated table, cursor, inserted flag). -/
def emplaceHashed (B : Nat) (t : TwoLevelHashTable) (k : Nat) (hashValue : Nat) :
    TwoLevelHashTable × Iter × Bool :=
  let buck := getBucketFromHash B hashValue
  let r := (t.bucket buck).emplace k
  let t' := t.setBucket buck r.1
  (t', ⟨t', buck, (r.1.findIdx k).getD 0⟩, r.2)

/-- `emplace(x, it, inserted)`: hash the key, then route. -/
def emplace (B : Nat) (h : Nat → Nat) (t : TwoLevelHashTable) (k : Nat) :
    TwoLevelHashTable × Iter × Bool :=
  emplaceHashed B t k (h k)

/-- `insert(x)`: hash the key once, emplace, and — only when a new key was
inserted — install the value's payload into the fresh slot. -/
def insert (B : Nat) (h : Nat → Nat) (t : TwoLevelHashTable) (x : Nat × Nat) :
    TwoLevelHashTable × Iter × Bool :=
  let hashValue := h x.1
  let r := emplaceHashed B t x.1 hashValue
  if r.2.2 then
    let buck := getBucketFromHash B hashValue
    let t' := r.1.setBucket buck ((r.1.bucket buck).setMapped x.1 x.2)
    (t', ⟨t', buck, r.2.1.inner⟩, true)
  else r

/-- `find(x)`: hash, route, forward to the shard's lookup; return the logical
end cursor when the shard reports absence. -/
def find (B : Nat) (h : Nat → Nat) (t : TwoLevelHashTable) (k : Nat) : Iter :=
  let hashValue := h k
  let buck := getBucketFromHash B hashValue
  match (t.bucket buck).findIdx k with
  | some j => ⟨t, buck, j⟩
  | none => endIter B t

/-- One step of the converting constructor's main loop: reuse the cell's
cached hash (`cell->getHash(src)`, equal to the hash of its key since the
source uses the same hash function), route, and insert through the shard's
uniqueness-unchecked fast path. -/
def insertFromCell (B : Nat) (h : Nat → Nat) (t : TwoLevelHashTable) (c : Nat × Nat) :
    TwoLevelHashTable :=
  let hashValue := h c.1
  let buck := getBucketFromHash B hashValue
  t.setBucket buck ((t.bucket buck).insertUniqueNonZero c)

/-- The converting constructor `TwoLevelHashTable(const Source &)`: iterate
the flat source table once; if the very first entry is the sentinel
(zero-key) entry, insert it through the ordinary `insert` path and advance;
fan every remaining entry out by its cached hash through the unchecked fast
path. -/
def ofSource (B : Nat) (h : Nat → Nat) (src : Impl) : TwoLevelHashTable :=
  let step :=
    match src.toList with
    | [] => (emptyTable B, ([] : List (Nat × Nat)))
    | c :: rest =>
      if c.1 = 0 then ((insert B h (emptyTable B) c).1, rest)
      else (emptyTable B, c :: rest)
  step.2.foldl (fun t c => insertFromCell B h t c) step.1

/-- `write(wb)`: each shard's binary payload, in bucket order, pure
concatenation. -/
def write (B : Nat) (t : TwoLevelHashTable) : List Token :=
  (List.range (numBuckets B)).flatMap (fun i => (t.bucket i).write)

/-- `writeText(wb)`: each shard's text payload in bucket order, with a single
comma written before every payload except the first. -/
def writeText (B : Nat) (t : TwoLevelHashTable) : List Token :=
  (List.range (numBuckets B)).flatMap
    (fun i => (if i ≠ 0 then [Token.ch ','] else []) ++ (t.bucket i).writeText)

/-- The loop of `read(rb)`: `n` remaining buckets starting at index `i`, each
parsed by the shard's own binary reader; a shard parse failure aborts. -/
def readLoop : Nat → Nat → TwoLevelHashTable → List Token →
    Option (TwoLevelHashTable × List Token)
  | 0, _, t, s => some (t, s)
  | n + 1, i, t, s =>
    match (t.bucket i).read s with
    | some (impl, s') => readLoop n (i + 1) (t.setBucket i impl) s'
    | none => none

/-- `read(rb)`: read exactly `NUM_BUCKETS` shard payloads in bucket order. -/
def read (B : Nat) (t : TwoLevelHashTable) (s : List Token) :
    Option (TwoLevelHashTable × List Token) :=
  readLoop (numBuckets B) 0 t s

/-- The loop of `readText(rb)`: before every bucket except the first, assert
and consume a comma, then run the shard's text reader.  The table mutated so
far is returned even on failure (`none` in the second component), modelling
the in-place mutation that an aborting parse leaves behind. -/
def readTextLoop : Nat → Nat → TwoLevelHashTable → List Token →
    TwoLevelHashTable × Option (List Token)
  | 0, _, t, s => (t, some s)
  | n + 1, i, t, s =>
    match (if i = 0 then some s else assertChar ',' s) with
    | none => (t, none)
    | some s1 =>
      match (t.bucket i).readText s1 with
      | none => (t, none)
      | some (impl, s2) => readTextLoop n (i + 1) (t.setBucket i impl) s2

/-- `readText(rb)`: read `NUM_BUCKETS` comma-separated shard payloads in
bucket order; the first component is the (possibly partially populated)
table, the second is `some` remaining stream on success and `none` on a parse
failure. -/
def readText (B : Nat) (t : TwoLevelHashTable) (s : List Token) :
    TwoLevelHashTable × Option (List Token) :=
  readTextLoop (numBuckets B) 0 t s

/-- Well-formedness of a two-level table with bucket-bit-width `B`: the shard
array has exactly `NUM_BUCKETS` shards and every shard is well-formed. -/
def WF (B : Nat) (t : TwoLevelHashTable) : Prop :=
  t.impls.length = numBuckets B ∧ ∀ impl ∈ t.impls, impl.WF

instance (B : Nat) (t : TwoLevelHashTable) : Decidable (t.WF B) := by
  unfold WF; infer_instance

/-- Entries of buckets `b, b+1, …, b+n-1` in ascending bucket order
(recursion-friendly form of `entriesList`). -/
def entriesFrom (t : TwoLevelHashTable) : Nat → Nat → List (Nat × Nat)
  | 0, _ => []
  | n + 1, b => (t.bucket b).toList ++ entriesFrom t n (b + 1)

/-- Concatenated binary shard payloads of buckets `i, …, i+n-1`. -/
def concatPayloads (u : TwoLevelHashTable) : Nat → Nat → List Token
  | _, 0 => []
  | i, n + 1 => (u.bucket i).write ++ concatPayloads u (i + 1) n

/-- Text shard payloads of buckets `i, …, i+n-1`, each preceded by the comma
delimiter (the shape of every non-first segment of `writeText`). -/
def segsFrom (u : TwoLevelHashTable) : Nat → Nat → List Token
  | _, 0 => []
  | i, n + 1 => Token.ch ',' :: ((u.bucket i).writeText ++ segsFrom u (i + 1) n)

/-- Canonical representative of a shard: the dedicated zero slot's stored
value is observable only while the slot is occupied, so deserializing a
shard's stream reproduces the shard up to this normalization. -/
def canonImpl (u : Impl) : Impl :=
  ⟨u.hasZero, if u.hasZero then u.zeroVal else 0, u.cells⟩

/-- Copy (the canonical form of) buckets `i, …, i+n-1` of `u` into `t` — the
state reached after the stream readers have parsed those buckets. -/
def copyFold (t u : TwoLevelHashTable) : Nat → Nat → TwoLevelHashTable
  | _, 0 => t
  | i, n + 1 => copyFold (t.setBucket i (canonImpl (u.bucket i))) u (i + 1) n

/-- Routing invariant I1: every entry of shard `i` has a hash routed to
bucket `i`. -/
def RoutingWF (B : Nat) (h : Nat → Nat) (t : TwoLevelHashTable) : Prop :=
  ∀ i ∈ List.range (numBuckets B), ∀ c ∈ (t.bucket i).toList,
    getBucketFromHash B (h c.1) = i

instance (B : Nat) (h : Nat → Nat) (t : TwoLevelHashTable) :
    Decidable (RoutingWF B h t) := by
  unfold RoutingWF; infer_instance

end TwoLevelHashTable

/-! ## Basic facts about the shard model -/

theorem Impl.length_toList (t : Impl) : t.toList.length = t.size := by
  cases h : t.hasZero
  · simp [Impl.toList, Impl.size, h]
  · simp [Impl.toList, Impl.size, h]
    omega

theorem Impl.empty_iff_size (t : Impl) : t.empty = true ↔ t.size = 0 := by
  cases h : t.hasZero <;>
    simp [Impl.empty, Impl.size, h, List.isEmpty_iff, List.length_eq_zero]

theorem Impl.empty_iff_toList (t : Impl) : t.empty = true ↔ t.toList = [] := by
  cases h : t.hasZero <;> simp [Impl.empty, Impl.toList, h, List.isEmpty_iff]

/-! ## Bucket access and update -/

namespace TwoLevelHashTable

theorem length_setBucket (t : TwoLevelHashTable) (i : Nat) (impl : Impl) :
    (t.setBucket i impl).impls.length = t.impls.length := by
  simp [setBucket]

theorem list_getD_set : ∀ (l : List Impl) (i j : Nat) (a : Impl),
    (l.set i a).getD j {} = if j = i ∧ i < l.length then a else l.getD j {}
  | [], i, j, a => by simp [List.getD]
  | b :: l, 0, 0, a => by simp [List.getD]
  | b :: l, 0, j + 1, a => by simp [List.getD]
  | b :: l, i + 1, 0, a => by simp [List.getD]
  | b :: l, i + 1, j + 1, a => by
    simp only [List.set_cons_succ, List.getD, List.get?_cons_succ,
      List.getElem?_cons_succ, List.length_cons]
    have h := list_getD_set l i j a
    simp only [List.getD] at h
    rw [h]
    by_cases hj : j = i <;> simp [hj, Nat.succ_lt_succ_iff]

theorem bucket_setBucket (t : TwoLevelHashTable) (i j : Nat) (impl : Impl) :
    (t.setBucket i impl).bucket j =
      if j = i ∧ i < t.impls.length then impl else t.bucket j := by
  simp only [setBucket, bucket]
  exact list_getD_set t.impls i j impl

theorem list_getD_replicate : ∀ (n i : Nat),
    (List.replicate n ({} : Impl)).getD i {} = {}
  | 0, _ => by simp [List.getD]
  | n + 1, 0 => by simp [List.getD]
  | n + 1, i + 1 => by
    simp only [List.replicate_succ, List.getD, List.getElem?_cons_succ]
    have h := list_getD_replicate n i
    simp only [List.getD] at h
    exact h

theorem bucket_emptyTable (B : Nat) (i : Nat) : (emptyTable B).bucket i = {} := by
  simp only [emptyTable, bucket]
  exact list_getD_replicate (numBuckets B) i

theorem length_emptyTable (B : Nat) : (emptyTable B).impls.length = numBuckets B := by
  simp [emptyTable]

theorem list_set_getD_self : ∀ (l : List Impl) (i : Nat), i < l.length →
    l.set i (l.getD i {}) = l
  | [], i, h => by simp at h
  | a :: l, 0, _ => by simp [List.getD]
  | a :: l, i + 1, h => by
    simp only [List.length_cons] at h
    simp only [List.set_cons_succ, List.getD, List.get?_cons_succ,
      List.getElem?_cons_succ]
    rw [show (l.get? i).getD ({} : Impl) = l.getD i {} from rfl]
    rw [list_set_getD_self l i (by omega)]

theorem setBucket_bucket_self (t : TwoLevelHashTable) (i : Nat)
    (h : i < t.impls.length) : t.setBucket i (t.bucket i) = t := by
  simp only [setBucket, bucket]
  rw [list_set_getD_self t.impls i h]

theorem sum_range_update (n : Nat) (f g : Nat → Nat) (i : Nat) (hi : i < n)
    (hfg : ∀ j, j ≠ i → f j = g j) :
    ((List.range n).map f).sum + g i = ((List.range n).map g).sum + f i := by
  induction n with
  | zero => omega
  | succ n ih =>
    rw [List.range_succ, List.map_append, List.map_append, List.sum_append,
      List.sum_append]
    rcases Nat.lt_or_ge i n with h | h
    · have hrec := ih h
      have hfn : f n = g n := hfg n (by omega)
      simp only [List.map_cons, List.map_nil, List.sum_cons, List.sum_nil]
      omega
    · have hin : i = n := by omega
      subst hin
      have hmap : (List.range i).map f = (List.range i).map g := by
        apply List.map_congr_left
        intro j hj
        exact hfg j (by simp at hj; omega)
      simp only [hmap, List.map_cons, List.map_nil, List.sum_cons, List.sum_nil]
      omega

theorem size_setBucket (B : Nat) (t : TwoLevelHashTable) (i : Nat) (impl : Impl)
    (hi : i < numBuckets B) (hl : i < t.impls.length) :
    size B (t.setBucket i impl) + (t.bucket i).size = size B t + impl.size := by
  unfold size
  have h := sum_range_update (numBuckets B)
    (fun j => ((t.setBucket i impl).bucket j).size)
    (fun j => (t.bucket j).size) i hi
    (fun j hj => by
      show ((t.setBucket i impl).bucket j).size = (t.bucket j).size
      rw [bucket_setBucket]
      simp [hj])
  simp only at h
  rw [bucket_setBucket, if_pos ⟨rfl, hl⟩] at h
  exact h

theorem getBucketFromHash_lt (B : Nat) (hv : Nat) :
    getBucketFromHash B hv < numBuckets B := by
  unfold getBucketFromHash maxBucket numBuckets
  rw [Nat.and_pow_two_sub_one_eq_mod]
  exact Nat.mod_lt _ (Nat.pos_pow_of_pos B (by omega))

end TwoLevelHashTable

open TwoLevelHashTable

/-- C1: the routing function is `(hash >> (32 - B)) & (2^B - 1)`, with `B`
defaulting to 8; with `B = 8` hash `0x00000000` routes to shard 0,
`0x01000000` to shard 1 and `0xFF000000` to shard 255, i.e.
`shard = (hash >> 24) & 0xFF`. -/
theorem C1_routing_function :
    (∀ B hv, getBucketFromHash B hv = (hv >>> (32 - B)) &&& (2 ^ B - 1)) ∧
    getBucketFromHash 8 0x00000000 = 0 ∧
    getBucketFromHash 8 0x01000000 = 1 ∧
    getBucketFromHash 8 0xFF000000 = 255 ∧
    (∀ hv, getBucketFromHash 8 hv = (hv >>> 24) &&& 0xFF) :=
  ⟨fun _ _ => rfl, by decide, by decide, by decide, fun _ => rfl⟩

/-- C9: `empty()` is true iff `size() == 0`, where `size()` sums the shard
sizes and `empty()` holds exactly when every shard reports empty. -/
theorem C9_empty_iff_size_zero (B : Nat) (t : TwoLevelHashTable) :
    TwoLevelHashTable.empty B t = true ↔ TwoLevelHashTable.size B t = 0 := by
  unfold TwoLevelHashTable.empty TwoLevelHashTable.size
  rw [List.all_eq_true, List.sum_eq_zero_iff]
  constructor
  · intro h x hx
    rw [List.mem_map] at hx
    obtain ⟨i, hi, rfl⟩ := hx
    exact (Impl.empty_iff_size _).1 (h i hi)
  · intro h i hi
    exact (Impl.empty_iff_size _).2
      (h _ (List.mem_map.2 ⟨i, hi, rfl⟩))

/-- C10: composite-cursor equality (for both `iterator` and `const_iterator`)
compares only the bucket index and the inner cursor, ignoring the
owning-container reference, so cursors at the same bucket and inner position
of two different tables compare equal; in particular `end()` cursors of
distinct tables compare equal whenever their last shards have equal sizes. -/
theorem C10_iterator_eq_ignores_container :
    (∀ a b : Iter, iterEq a b = (a.bucket == b.bucket && a.inner == b.inner)) ∧
    (∀ (t1 t2 : TwoLevelHashTable) (b i : Nat),
      iterEq ⟨t1, b, i⟩ ⟨t2, b, i⟩ = true) ∧
    (∀ a b : CIter, citerEq a b = (a.bucket == b.bucket && a.inner == b.inner)) ∧
    (∀ (t1 t2 : TwoLevelHashTable) (b i : Nat),
      citerEq ⟨t1, b, i⟩ ⟨t2, b, i⟩ = true) ∧
    (∀ (B : Nat) (t1 t2 : TwoLevelHashTable),
      (t1.bucket (maxBucket B)).size = (t2.bucket (maxBucket B)).size →
      t1 ≠ t2 →
      iterEq (endIter B t1) (endIter B t2) = true) := by
  refine ⟨fun a b => rfl, ?_, fun a b => rfl, ?_, ?_⟩
  · intro t1 t2 b i
    simp [iterEq]
  · intro t1 t2 b i
    simp [citerEq]
  · intro B t1 t2 hsz _
    simp [iterEq, endIter, hsz]

/-- Closed witness for C10: the `end()` cursors of two distinct concrete
tables compare equal. -/
theorem C10_witness :
    iterEq (endIter 1 (emptyTable 1))
        (endIter 1 (⟨[⟨true, 5, []⟩, {}]⟩ : TwoLevelHashTable)) = true :=
  C10_iterator_eq_ignores_container.2.2.2.2 1 (emptyTable 1)
    ⟨[⟨true, 5, []⟩, {}]⟩ (by decide) (by decide)

/-! ## The skip-empty scan and composite-cursor traversal -/

namespace TwoLevelHashTable

theorem scanAux_spec (t : TwoLevelHashTable) (fuel : Nat) : ∀ b : Nat,
    b ≤ scanNonEmptyAux t fuel b ∧ scanNonEmptyAux t fuel b ≤ b + fuel ∧
    (∀ j, b ≤ j → j < scanNonEmptyAux t fuel b → (t.bucket j).empty = true) ∧
    (scanNonEmptyAux t fuel b < b + fuel →
      (t.bucket (scanNonEmptyAux t fuel b)).empty = false) := by
  induction fuel with
  | zero =>
    intro b
    refine ⟨le_rfl, by simp [scanNonEmptyAux], ?_, ?_⟩
    · intro j h1 h2
      simp [scanNonEmptyAux] at h2
      omega
    · intro h
      simp [scanNonEmptyAux] at h
  | succ fuel ih =>
    intro b
    by_cases hb : (t.bucket b).empty = true
    · obtain ⟨h1, h2, h3, h4⟩ := ih (b + 1)
      have heq : scanNonEmptyAux t (fuel + 1) b = scanNonEmptyAux t fuel (b + 1) := by
        simp [scanNonEmptyAux, hb]
      rw [heq]
      refine ⟨by omega, by omega, ?_, fun hlt => h4 (by omega)⟩
      intro j hj1 hj2
      rcases Nat.eq_or_lt_of_le hj1 with hj1 | hj1
      · rw [← hj1]; exact hb
      · exact h3 j (by omega) hj2
    · have heq : scanNonEmptyAux t (fuel + 1) b = b := by
        simp [scanNonEmptyAux, hb]
      rw [heq]
      refine ⟨le_rfl, by omega, ?_, ?_⟩
      · intro j h1 h2; omega
      · intro _
        simpa using hb

theorem scanNonEmpty_spec (B : Nat) (t : TwoLevelHashTable) (b : Nat)
    (hb : b ≤ numBuckets B) :
    b ≤ scanNonEmpty B t b ∧ scanNonEmpty B t b ≤ numBuckets B ∧
    (∀ j, b ≤ j → j < scanNonEmpty B t b → (t.bucket j).empty = true) ∧
    (scanNonEmpty B t b < numBuckets B →
      (t.bucket (scanNonEmpty B t b)).empty = false) := by
  have h := scanAux_spec t (numBuckets B - b) b
  have hsum : b + (numBuckets B - b) = numBuckets B := by omega
  unfold scanNonEmpty
  rw [hsum] at h
  exact h

theorem entriesFrom_empty_prefix (t : TwoLevelHashTable) :
    ∀ (n b b' : Nat), b ≤ b' → b' ≤ b + n →
    (∀ j, b ≤ j → j < b' → (t.bucket j).empty = true) →
    entriesFrom t n b = entriesFrom t (b + n - b') b' := by
  intro n
  induction n with
  | zero =>
    intro b b' h1 h2 _
    have : b' = b := by omega
    subst this
    simp [entriesFrom]
  | succ n ih =>
    intro b b' h1 h2 hemp
    rcases Nat.eq_or_lt_of_le h1 with h1 | h1
    · subst h1
      have : b + (n + 1) - b = n + 1 := by omega
      rw [this]
    · have hbe : (t.bucket b).toList = [] :=
        (Impl.empty_iff_toList _).1 (hemp b le_rfl h1)
      have := ih (b + 1) b' (by omega) (by omega)
        (fun j hj1 hj2 => hemp j (by omega) hj2)
      simp only [entriesFrom, hbe, List.nil_append]
      rw [this]
      congr 1
      omega

theorem entriesFrom_all_empty (t : TwoLevelHashTable) (n b : Nat)
    (h : ∀ j, b ≤ j → j < b + n → (t.bucket j).empty = true) :
    entriesFrom t n b = [] := by
  have h2 := entriesFrom_empty_prefix t n b (b + n) (by omega) le_rfl h
  rw [h2, Nat.sub_self]
  simp [entriesFrom]

theorem entriesList_eq_entriesFrom (B : Nat) (t : TwoLevelHashTable) :
    entriesList B t = entriesFrom t (numBuckets B) 0 := by
  unfold entriesList
  rw [List.range_eq_range']
  suffices h : ∀ (n b : Nat),
      (List.range' b n).flatMap (fun i => (t.bucket i).toList) = entriesFrom t n b by
    exact h (numBuckets B) 0
  intro n
  induction n with
  | zero => intro b; simp [entriesFrom]
  | succ n ih =>
    intro b
    rw [List.range'_succ]
    simp [entriesFrom, ih (b + 1)]

theorem length_entriesFrom (t : TwoLevelHashTable) :
    ∀ (n b : Nat), (entriesFrom t n b).length =
      ((List.range' b n).map (fun i => (t.bucket i).size)).sum := by
  intro n
  induction n with
  | zero => intro b; simp [entriesFrom]
  | succ n ih =>
    intro b
    rw [List.range'_succ]
    simp [entriesFrom, ih (b + 1), Impl.length_toList]

theorem length_entriesList (B : Nat) (t : TwoLevelHashTable) :
    (entriesList B t).length = size B t := by
  rw [entriesList_eq_entriesFrom, length_entriesFrom]
  unfold size
  rw [List.range_eq_range']

theorem drop_eq_getD_cons : ∀ (l : List (Nat × Nat)) (i : Nat), i < l.length →
    l.drop i = l.getD i (0, 0) :: l.drop (i + 1)
  | [], i, h => by simp at h
  | a :: l, 0, _ => by simp [List.getD]
  | a :: l, i + 1, h => by
    simp only [List.length_cons] at h
    simp only [List.drop_succ_cons, List.getD, List.get?_cons_succ,
      List.getElem?_cons_succ]
    exact drop_eq_getD_cons l i (by omega)

theorem iterEq_end_false (B : Nat) (t : TwoLevelHashTable) (b i : Nat)
    (hb : b + 1 ≤ numBuckets B) (hi : i < (t.bucket b).size) :
    iterEq ⟨t, b, i⟩ (endIter B t) = false := by
  by_cases hbm : b = maxBucket B
  · subst hbm
    simp only [iterEq, endIter, Bool.and_eq_false_iff]
    right
    simp only [beq_eq_false_iff_ne, ne_eq]
    omega
  · simp [iterEq, endIter, hbm]

theorem trav_main (B : Nat) (t : TwoLevelHashTable) : ∀ fuel : Nat,
    (∀ b n, b + n = numBuckets B → (entriesFrom t n b).length < fuel →
      traverseFrom B t fuel
        ⟨t, (beginOfNextNonEmptyBucket B t b).1, (beginOfNextNonEmptyBucket B t b).2⟩
        = entriesFrom t n b) ∧
    (∀ b n i, b + (n + 1) = numBuckets B → i < (t.bucket b).size →
      ((t.bucket b).toList.drop i).length + (entriesFrom t n (b + 1)).length < fuel →
      traverseFrom B t fuel ⟨t, b, i⟩ =
        (t.bucket b).toList.drop i ++ entriesFrom t n (b + 1)) := by
  intro fuel
  induction fuel with
  | zero =>
    exact ⟨fun b n _ h => absurd h (by omega),
      fun b n i _ _ h => absurd h (by omega)⟩
  | succ fuel ih =>
    obtain ⟨ihS, ihM⟩ := ih
    have hMid : ∀ b n i, b + (n + 1) = numBuckets B → i < (t.bucket b).size →
        ((t.bucket b).toList.drop i).length + (entriesFrom t n (b + 1)).length < fuel + 1 →
        traverseFrom B t (fuel + 1) ⟨t, b, i⟩ =
          (t.bucket b).toList.drop i ++ entriesFrom t n (b + 1) := by
      intro b n i hbn hi hfuel
      have hlen : (t.bucket b).toList.length = (t.bucket b).size :=
        Impl.length_toList _
      have hne : iterEq ⟨t, b, i⟩ (endIter B t) = false :=
        iterEq_end_false B t b i (by omega) hi
      simp only [traverseFrom, hne, Bool.false_eq_true, if_false]
      have hgi : getIter t ⟨t, b, i⟩ = (t.bucket b).toList.getD i (0, 0) := rfl
      by_cases hstep : i + 1 = (t.bucket b).size
      · have hnext : nextIter B t ⟨t, b, i⟩ =
            ⟨t, (beginOfNextNonEmptyBucket B t (b + 1)).1,
              (beginOfNextNonEmptyBucket B t (b + 1)).2⟩ := by
          simp [nextIter, hstep]
        rw [hnext, hgi]
        have hdroplen : ((t.bucket b).toList.drop i).length = 1 := by
          rw [List.length_drop]
          omega
        rw [ihS (b + 1) n (by omega) (by omega)]
        rw [drop_eq_getD_cons _ i (by omega)]
        have : (t.bucket b).toList.drop (i + 1) = [] := by
          rw [List.drop_eq_nil_iff]
          omega
        rw [this]
        simp
      · have hnext : nextIter B t ⟨t, b, i⟩ = ⟨t, b, i + 1⟩ := by
          simp [nextIter, hstep]
        rw [hnext, hgi]
        have hi1 : i + 1 < (t.bucket b).size := by omega
        rw [ihM b n (i + 1) hbn hi1 (by
          rw [List.length_drop] at hfuel ⊢
          omega)]
        rw [drop_eq_getD_cons _ i (by omega)]
        simp
    refine ⟨?_, hMid⟩
    intro b n hbn hlen
    obtain ⟨hs1, hs2, hs3, hs4⟩ := scanNonEmpty_spec B t b (by omega)
    by_cases hend : scanNonEmpty B t b = numBuckets B
    · have hempty : entriesFrom t n b = [] :=
        entriesFrom_all_empty t n b
          (fun j h1 h2 => hs3 j h1 (by omega))
      have hp : beginOfNextNonEmptyBucket B t b =
          (maxBucket B, (t.bucket (maxBucket B)).size) := by
        simp [beginOfNextNonEmptyBucket, hend]
      rw [hp, hempty]
      simp [traverseFrom, iterEq, endIter]
    · have hlt : scanNonEmpty B t b < numBuckets B := by omega
      have hnonempty : (t.bucket (scanNonEmpty B t b)).empty = false := hs4 hlt
      have hp : beginOfNextNonEmptyBucket B t b = (scanNonEmpty B t b, 0) := by
        simp [beginOfNextNonEmptyBucket, hend]
      rw [hp]
      have hpre := entriesFrom_empty_prefix t n b (scanNonEmpty B t b) hs1
        (by omega) hs3
      have hn' : 1 ≤ b + n - scanNonEmpty B t b := by omega
      have hsz : 0 < (t.bucket (scanNonEmpty B t b)).size := by
        rcases Nat.eq_zero_or_pos (t.bucket (scanNonEmpty B t b)).size with h0 | h0
        · rw [(Impl.empty_iff_size _).2 h0] at hnonempty
          exact absurd hnonempty (by simp)
        · exact h0
      have hsplit : entriesFrom t (b + n - scanNonEmpty B t b) (scanNonEmpty B t b) =
          (t.bucket (scanNonEmpty B t b)).toList ++
            entriesFrom t (b + n - scanNonEmpty B t b - 1) (scanNonEmpty B t b + 1) := by
        conv_lhs => rw [show b + n - scanNonEmpty B t b =
          (b + n - scanNonEmpty B t b - 1) + 1 from by omega]
        rfl
      have hm := hMid (scanNonEmpty B t b) (b + n - scanNonEmpty B t b - 1) 0
        (by omega) hsz
        (by
          rw [hpre] at hlen
          rw [hsplit, List.length_append] at hlen
          simp only [List.drop_zero]
          omega)
      simp only [List.drop_zero] at hm
      rw [hm, hpre, hsplit]

theorem traverse_begin_eq_entries (B : Nat) (t : TwoLevelHashTable) :
    traverseFrom B t (size B t + 1) (begin B t) = entriesList B t := by
  have h := (trav_main B t (size B t + 1)).1 0 (numBuckets B) (by omega)
    (by rw [← entriesList_eq_entriesFrom, length_entriesList]; omega)
  rw [entriesList_eq_entriesFrom]
  exact h

end TwoLevelHashTable

/-- C4: composite-cursor traversal from `begin()` visits every entry exactly
once (it yields precisely the concatenation of the shards' entries), shards
are visited in ascending index order; `begin()` skips empty shards from shard
0 and lands on the first non-empty shard's begin position; if every shard is
empty, `begin()` equals `end()`, the canonical sentinel
`(MAX_BUCKET, impls[MAX_BUCKET].end())`. -/
theorem C4_composite_cursor_traversal (B : Nat) (t : TwoLevelHashTable) :
    traverseFrom B t (size B t + 1) (begin B t) = entriesList B t ∧
    (TwoLevelHashTable.empty B t = true → begin B t = endIter B t) ∧
    (TwoLevelHashTable.empty B t = false →
      (t.bucket (begin B t).bucket).empty = false ∧ (begin B t).inner = 0 ∧
      ∀ j < (begin B t).bucket, (t.bucket j).empty = true) ∧
    endIter B t = ⟨t, maxBucket B, (t.bucket (maxBucket B)).size⟩ := by
  obtain ⟨hs1, hs2, hs3, hs4⟩ := scanNonEmpty_spec B t 0 (by omega)
  refine ⟨traverse_begin_eq_entries B t, ?_, ?_, rfl⟩
  · intro hemp
    unfold TwoLevelHashTable.empty at hemp
    rw [List.all_eq_true] at hemp
    have hend : scanNonEmpty B t 0 = numBuckets B := by
      by_contra hne
      have hlt : scanNonEmpty B t 0 < numBuckets B := by omega
      have := hs4 hlt
      have := hemp (scanNonEmpty B t 0) (List.mem_range.2 hlt)
      simp_all
    unfold begin beginOfNextNonEmptyBucket endIter
    simp [hend]
  · intro hemp
    have hne : scanNonEmpty B t 0 ≠ numBuckets B := by
      intro hcontra
      have hall : TwoLevelHashTable.empty B t = true := by
        unfold TwoLevelHashTable.empty
        rw [List.all_eq_true]
        intro i hi
        exact hs3 i (by omega) (by rw [hcontra]; exact List.mem_range.1 hi)
      rw [hall] at hemp
      simp at hemp
    have hb : begin B t = ⟨t, scanNonEmpty B t 0, 0⟩ := by
      unfold begin beginOfNextNonEmptyBucket
      simp [hne]
    rw [hb]
    exact ⟨hs4 (by omega), rfl, fun j hj => hs3 j (by omega) hj⟩

/-- Closed witness for C4: the begin/end equalities at two concrete tables,
one empty and one with a single entry. -/
theorem C4_witness :
    begin 1 (emptyTable 1) = endIter 1 (emptyTable 1) ∧
    ((⟨[⟨true, 5, []⟩, {}]⟩ : TwoLevelHashTable).bucket
        (begin 1 ⟨[⟨true, 5, []⟩, {}]⟩).bucket).empty = false :=
  ⟨(C4_composite_cursor_traversal 1 (emptyTable 1)).2.1 (by decide),
    ((C4_composite_cursor_traversal 1 ⟨[⟨true, 5, []⟩, {}]⟩).2.2.1 (by decide)).1⟩

/-! ## Lookup and reserve-or-locate lemmas -/

theorem list_getD_mem {α : Type} (d : α) : ∀ (l : List α) (i : Nat),
    i < l.length → l.getD i d ∈ l
  | [], i, h => by simp at h
  | a :: l, 0, _ => by simp [List.getD]
  | a :: l, i + 1, h => by
    simp only [List.length_cons] at h
    simp only [List.getD, List.get?_cons_succ, List.getElem?_cons_succ]
    exact List.mem_cons_of_mem a (list_getD_mem d l i (by omega))

theorem pair_getD_cons_succ (a : Nat × Nat) (l : List (Nat × Nat)) (j : Nat) :
    (a :: l).getD (j + 1) (0, 0) = l.getD j (0, 0) := rfl

theorem list_getD_append : ∀ (l1 l2 : List (Nat × Nat)) (j : Nat),
    (l1 ++ l2).getD (l1.length + j) (0, 0) = l2.getD j (0, 0)
  | [], l2, j => by simp
  | a :: l1, l2, j => by
    simp only [List.cons_append, List.length_cons]
    rw [show l1.length + 1 + j = (l1.length + j) + 1 from by omega]
    rw [pair_getD_cons_succ]
    exact list_getD_append l1 l2 j

theorem cellsFindIdx_spec : ∀ (l : List (Nat × Nat)) (k j : Nat),
    cellsFindIdx k l = some j → j < l.length ∧ (l.getD j (0, 0)).1 = k
  | [], k, j => by intro h; simp [cellsFindIdx] at h
  | c :: l, k, j => by
    intro h
    simp only [cellsFindIdx] at h
    by_cases hc : c.1 = k
    · rw [if_pos hc] at h
      cases h
      simpa [List.getD] using hc
    · rw [if_neg hc] at h
      rcases hj : cellsFindIdx k l with _ | j'
      · rw [hj] at h; simp at h
      · rw [hj] at h
        simp at h
        subst h
        have := cellsFindIdx_spec l k j' hj
        simp only [List.length_cons, pair_getD_cons_succ]
        exact ⟨by omega, this.2⟩

theorem cellsFindIdx_none : ∀ (l : List (Nat × Nat)) (k : Nat),
    (∀ c ∈ l, c.1 ≠ k) → cellsFindIdx k l = none
  | [], k, _ => rfl
  | c :: l, k, h => by
    simp only [cellsFindIdx]
    rw [if_neg (h c (List.mem_cons_self c l))]
    rw [cellsFindIdx_none l k (fun d hd => h d (List.mem_cons_of_mem c hd))]
    rfl

theorem cellsFindIdx_mem_nodup : ∀ (l : List (Nat × Nat)) (k v : Nat),
    (l.map Prod.fst).Nodup → (k, v) ∈ l →
    ∃ j, cellsFindIdx k l = some j ∧ l.getD j (0, 0) = (k, v)
  | [], k, v, _, hmem => by simp at hmem
  | c :: l, k, v, hnd, hmem => by
    simp only [List.map_cons, List.nodup_cons] at hnd
    by_cases hc : c.1 = k
    · refine ⟨0, by simp [cellsFindIdx, hc], ?_⟩
      rcases List.mem_cons.1 hmem with hcc | hmem'
      · simp [List.getD, hcc.symm]
      · exfalso
        apply hnd.1
        rw [hc]
        exact List.mem_map.2 ⟨(k, v), hmem', rfl⟩
    · have hmem' : (k, v) ∈ l := by
        rcases List.mem_cons.1 hmem with hcc | hmem'
        · exact absurd (congrArg Prod.fst hcc.symm) hc
        · exact hmem'
      obtain ⟨j, hj1, hj2⟩ := cellsFindIdx_mem_nodup l k v hnd.2 hmem'
      exact ⟨j + 1, by simp [cellsFindIdx, hc, hj1], by
        rw [pair_getD_cons_succ]; exact hj2⟩

theorem cellsFindIdx_append_fresh : ∀ (l : List (Nat × Nat)) (k v : Nat),
    (∀ c ∈ l, c.1 ≠ k) → cellsFindIdx k (l ++ [(k, v)]) = some l.length
  | [], k, v, _ => by simp [cellsFindIdx]
  | c :: l, k, v, h => by
    simp only [List.cons_append, cellsFindIdx, List.append_eq]
    rw [if_neg (h c (List.mem_cons_self c l))]
    rw [cellsFindIdx_append_fresh l k v (fun d hd => h d (List.mem_cons_of_mem c hd))]
    simp

namespace Impl

theorem mem_toList_of_mem_cells (t : Impl) (c : Nat × Nat) (h : c ∈ t.cells) :
    c ∈ t.toList := by
  simp [Impl.toList, h]

theorem zero_mem_toList (t : Impl) (h : t.hasZero = true) :
    (0, t.zeroVal) ∈ t.toList := by
  simp [Impl.toList, h]

theorem findIdx_spec (t : Impl) (k j : Nat) (h : t.findIdx k = some j) :
    j < t.toList.length ∧ (t.toList.getD j (0, 0)).1 = k := by
  unfold findIdx at h
  by_cases hk : k = 0
  · subst hk
    rw [if_pos rfl] at h
    by_cases hz : t.hasZero = true
    · rw [if_pos hz] at h
      cases h
      simp [Impl.toList, hz, List.getD]
    · rw [if_neg hz] at h; simp at h
  · rw [if_neg hk] at h
    rcases hj : cellsFindIdx k t.cells with _ | j'
    · rw [hj] at h; simp at h
    · rw [hj] at h
      simp only [Option.some_inj] at h
      obtain ⟨hlt, hkey⟩ := cellsFindIdx_spec t.cells k j' hj
      subst h
      by_cases hz : t.hasZero = true
      · rw [if_pos hz]
        constructor
        · simp [Impl.toList, hz]; omega
        · rw [show t.toList = (0, t.zeroVal) :: t.cells from by
            simp [Impl.toList, hz]]
          rw [show 1 + j' = j' + 1 from by omega, pair_getD_cons_succ]
          exact hkey
      · rw [if_neg hz]
        constructor
        · simp [Impl.toList, hz]; omega
        · rw [show t.toList = t.cells from by simp [Impl.toList, hz]]
          simpa using hkey

theorem findIdx_none_of_absent (t : Impl) (k : Nat)
    (h : ∀ c ∈ t.toList, c.1 ≠ k) : t.findIdx k = none := by
  unfold findIdx
  by_cases hk : k = 0
  · subst hk
    rw [if_pos rfl]
    cases hz : t.hasZero
    · simp
    · exact absurd rfl (h (0, t.zeroVal) (zero_mem_toList t hz))
  · rw [if_neg hk]
    rw [cellsFindIdx_none t.cells k
      (fun c hc => h c (mem_toList_of_mem_cells t c hc))]

theorem findIdx_mem_wf (t : Impl) (k v : Nat) (hwf : t.WF)
    (hmem : (k, v) ∈ t.toList) :
    ∃ j, t.findIdx k = some j ∧ t.toList.getD j (0, 0) = (k, v) := by
  unfold findIdx
  by_cases hk : k = 0
  · subst hk
    rw [if_pos rfl]
    have hz : t.hasZero = true ∧ v = t.zeroVal := by
      unfold Impl.toList at hmem
      by_cases hzz : t.hasZero = true
      · rw [if_pos hzz] at hmem
        simp at hmem
        rcases hmem with h0 | hmem
        · exact ⟨hzz, by omega⟩
        · exact absurd rfl (hwf.1 _ hmem)
      · rw [if_neg hzz] at hmem
        simp at hmem
        exact absurd rfl (hwf.1 _ hmem)
    rw [if_pos hz.1]
    refine ⟨0, rfl, ?_⟩
    simp [Impl.toList, hz.1, hz.2, List.getD]
  · rw [if_neg hk]
    have hmem' : (k, v) ∈ t.cells := by
      unfold Impl.toList at hmem
      by_cases hzz : t.hasZero = true
      · rw [if_pos hzz] at hmem
        simp at hmem
        rcases hmem with h0 | hmem
        · exact absurd h0.1 hk
        · exact hmem
      · rw [if_neg hzz] at hmem; simpa using hmem
    obtain ⟨j, hj1, hj2⟩ := cellsFindIdx_mem_nodup t.cells k v hwf.2 hmem'
    rw [hj1]
    refine ⟨(if t.hasZero then 1 else 0) + j, rfl, ?_⟩
    by_cases hz : t.hasZero = true
    · rw [show t.toList = (0, t.zeroVal) :: t.cells from by simp [Impl.toList, hz]]
      rw [if_pos hz, show 1 + j = j + 1 from by omega, pair_getD_cons_succ]
      exact hj2
    · rw [show t.toList = t.cells from by simp [Impl.toList, hz]]
      rw [if_neg hz]
      simpa using hj2

theorem toList_getD_offset (t : Impl) (j : Nat) :
    t.toList.getD ((if t.hasZero then 1 else 0) + j) (0, 0) =
      t.cells.getD j (0, 0) := by
  by_cases hz : t.hasZero = true
  · rw [show t.toList = (0, t.zeroVal) :: t.cells from by simp [Impl.toList, hz]]
    rw [if_pos hz, show 1 + j = j + 1 from by omega, pair_getD_cons_succ]
  · rw [show t.toList = t.cells from by simp [Impl.toList, hz]]
    rw [if_neg hz]
    simp

/-- Reserving a fresh key and installing its payload: the inserted flag is
true, the size grows by one, a second reserve on the same key is a no-op
reporting false, and lookup returns the installed entry. -/
theorem emplace_setMapped_fresh (t : Impl) (k v : Nat)
    (habs : ∀ c ∈ t.toList, c.1 ≠ k) :
    (t.emplace k).2 = true ∧
    ((t.emplace k).1.setMapped k v).size = t.size + 1 ∧
    ((t.emplace k).1.setMapped k v).emplace k =
      ((t.emplace k).1.setMapped k v, false) ∧
    (∃ j, ((t.emplace k).1.setMapped k v).findIdx k = some j ∧
      ((t.emplace k).1.setMapped k v).toList.getD j (0, 0) = (k, v)) := by
  by_cases hk : k = 0
  · subst hk
    have hz : t.hasZero = false := by
      by_contra hcon
      rw [Bool.not_eq_false] at hcon
      exact habs (0, t.zeroVal) (Impl.zero_mem_toList t hcon) rfl
    have hemp : t.emplace 0 = ({ t with hasZero := true }, true) := by
      simp [Impl.emplace, hz]
    rw [hemp]
    have hsm : ({ t with hasZero := true } : Impl).setMapped 0 v =
        { t with hasZero := true, zeroVal := v } := by
      simp [Impl.setMapped]
    rw [hsm]
    refine ⟨rfl, ?_, ?_, 0, ?_, ?_⟩
    · simp [Impl.size, hz]
      omega
    · simp [Impl.emplace]
    · simp [Impl.findIdx]
    · simp [Impl.toList, List.getD]
  · have hani : t.cells.any (fun c => c.1 == k) = false := by
      rw [List.any_eq_false]
      intro c hc
      simpa using habs c (Impl.mem_toList_of_mem_cells t c hc)
    have hemp : t.emplace k = ({ t with cells := t.cells ++ [(k, 0)] }, true) := by
      simp [Impl.emplace, hk, hani]
    rw [hemp]
    have hmap : (t.cells ++ [(k, 0)]).map
        (fun c : Nat × Nat => if c.1 == k then (k, v) else c) =
          t.cells ++ [(k, v)] := by
      rw [List.map_append]
      congr 1
      · conv_rhs => rw [← List.map_id t.cells]
        apply List.map_congr_left
        intro c hc
        have := habs c (Impl.mem_toList_of_mem_cells t c hc)
        simp [this]
      · simp
    have hsm : ({ t with cells := t.cells ++ [(k, 0)] } : Impl).setMapped k v =
        { t with cells := t.cells ++ [(k, v)] } := by
      simp only [Impl.setMapped, if_neg hk]
      rw [hmap]
    rw [hsm]
    have hfresh : ∀ c ∈ t.cells, c.1 ≠ k :=
      fun c hc => habs c (Impl.mem_toList_of_mem_cells t c hc)
    refine ⟨rfl, ?_, ?_, (if t.hasZero then 1 else 0) + t.cells.length, ?_, ?_⟩
    · simp [Impl.size]
      omega
    · have hany : (t.cells ++ [(k, v)]).any (fun c => c.1 == k) = true := by
        rw [List.any_eq_true]
        exact ⟨(k, v), by simp⟩
      simp [Impl.emplace, hk, hany]
    · simp only [Impl.findIdx, if_neg hk]
      rw [cellsFindIdx_append_fresh t.cells k v hfresh]
    · have hoff := toList_getD_offset
        (⟨t.hasZero, t.zeroVal, t.cells ++ [(k, v)]⟩ : Impl) t.cells.length
      simp only at hoff ⊢
      rw [hoff]
      rw [show t.cells.length = t.cells.length + 0 from by omega]
      rw [list_getD_append]
      simp [List.getD]

end Impl

namespace TwoLevelHashTable

theorem setBucket_setBucket (t : TwoLevelHashTable) (i : Nat) (a b : Impl) :
    (t.setBucket i a).setBucket i b = t.setBucket i b := by
  simp [setBucket, List.set_set]

theorem mem_entriesList_of_bucket (B : Nat) (t : TwoLevelHashTable) (i : Nat)
    (c : Nat × Nat) (hi : i < numBuckets B) (hc : c ∈ (t.bucket i).toList) :
    c ∈ entriesList B t := by
  unfold entriesList
  rw [List.mem_flatMap]
  exact ⟨i, List.mem_range.2 hi, hc⟩

theorem insert_existing (B : Nat) (h : Nat → Nat) (t' : TwoLevelHashTable)
    (k v' : Nat)
    (hempl : (t'.bucket (getBucketFromHash B (h k))).emplace k =
      (t'.bucket (getBucketFromHash B (h k)), false))
    (hl : getBucketFromHash B (h k) < t'.impls.length) :
    (insert B h t' (k, v')).1 = t' ∧ (insert B h t' (k, v')).2.2 = false := by
  simp only [TwoLevelHashTable.insert, emplaceHashed, hempl, Bool.false_eq_true,
    if_false]
  exact ⟨setBucket_bucket_self t' _ hl, trivial⟩

end TwoLevelHashTable

/-- C7: inserting the same key twice yields exactly one entry — the first
insert reports was-inserted true, the second reports false and leaves the
table (and hence the first installed value) untouched, total `size()` grows
by exactly 1 across both calls, and `find` afterwards returns the value
installed by the first insert. -/
theorem C7_insert_same_key_twice (B : Nat) (h : Nat → Nat)
    (t : TwoLevelHashTable) (k v v' : Nat)
    (hlen : t.impls.length = numBuckets B)
    (habs : ∀ c ∈ entriesList B t, c.1 ≠ k) :
    (insert B h t (k, v)).2.2 = true ∧
    (insert B h (insert B h t (k, v)).1 (k, v')).2.2 = false ∧
    (insert B h (insert B h t (k, v)).1 (k, v')).1 = (insert B h t (k, v)).1 ∧
    size B (insert B h (insert B h t (k, v)).1 (k, v')).1 = size B t + 1 ∧
    getIter (insert B h (insert B h t (k, v)).1 (k, v')).1
        (find B h (insert B h (insert B h t (k, v)).1 (k, v')).1 k) =
      (k, v) := by
  have hbl : getBucketFromHash B (h k) < numBuckets B := getBucketFromHash_lt B (h k)
  have hbl' : getBucketFromHash B (h k) < t.impls.length := by omega
  have habsb : ∀ c ∈ (t.bucket (getBucketFromHash B (h k))).toList, c.1 ≠ k :=
    fun c hc => habs c (mem_entriesList_of_bucket B t _ c hbl hc)
  obtain ⟨he1, he2, he3, j, hj1, hj2⟩ :=
    Impl.emplace_setMapped_fresh (t.bucket (getBucketFromHash B (h k))) k v habsb
  have hfst : (insert B h t (k, v)).1 =
      t.setBucket (getBucketFromHash B (h k))
        (((t.bucket (getBucketFromHash B (h k))).emplace k).1.setMapped k v) := by
    simp only [TwoLevelHashTable.insert, emplaceHashed, he1, if_pos]
    rw [bucket_setBucket, if_pos ⟨rfl, hbl'⟩, setBucket_setBucket]
  have hins1 : (insert B h t (k, v)).2.2 = true := by
    simp only [TwoLevelHashTable.insert, emplaceHashed, he1, if_pos]
  have ht1len : (insert B h t (k, v)).1.impls.length = numBuckets B := by
    rw [hfst, length_setBucket, hlen]
  have ht1b : (insert B h t (k, v)).1.bucket (getBucketFromHash B (h k)) =
      ((t.bucket (getBucketFromHash B (h k))).emplace k).1.setMapped k v := by
    rw [hfst, bucket_setBucket, if_pos ⟨rfl, hbl'⟩]
  have hexist := insert_existing B h (insert B h t (k, v)).1 k v'
    (by rw [ht1b]; exact he3) (by omega)
  have hsnd2 : (insert B h (insert B h t (k, v)).1 (k, v')).2.2 = false :=
    hexist.2
  have hsnd1 : (insert B h (insert B h t (k, v)).1 (k, v')).1 =
      (insert B h t (k, v)).1 :=
    hexist.1
  refine ⟨hins1, hsnd2, hsnd1, ?_, ?_⟩
  · rw [hsnd1]
    have hsz := size_setBucket B t (getBucketFromHash B (h k))
      (((t.bucket (getBucketFromHash B (h k))).emplace k).1.setMapped k v)
      hbl hbl'
    rw [← hfst] at hsz
    omega
  · rw [hsnd1]
    have hfind : find B h (insert B h t (k, v)).1 k =
        ⟨(insert B h t (k, v)).1, getBucketFromHash B (h k), j⟩ := by
      simp only [find, ht1b, hj1]
    rw [hfind]
    show ((insert B h t (k, v)).1.bucket (getBucketFromHash B (h k))).toList.getD
      j (0, 0) = (k, v)
    rw [ht1b]
    exact hj2

/-- Closed witness for C7 at a concrete table, hash function and key. -/
theorem C7_witness :
    (insert 1 (fun _ => 0) (emptyTable 1) (4, 9)).2.2 = true ∧
    (insert 1 (fun _ => 0)
        (insert 1 (fun _ => 0) (emptyTable 1) (4, 9)).1 (4, 11)).2.2 = false ∧
    size 1 (insert 1 (fun _ => 0)
        (insert 1 (fun _ => 0) (emptyTable 1) (4, 9)).1 (4, 11)).1 =
      size 1 (emptyTable 1) + 1 := by
  have hth := C7_insert_same_key_twice 1 (fun _ => 0) (emptyTable 1) 4 9 11
    (by decide) (by decide)
  exact ⟨hth.1, hth.2.1, hth.2.2.2.1⟩

/-- C8: for a key present in the table, `find` returns a cursor over an entry
with that key located at shard index `shard_index(hash(k))`; for a key absent
from the table, `find` returns the logical end cursor. -/
theorem C8_find (B : Nat) (h : Nat → Nat) (t : TwoLevelHashTable) (k : Nat)
    (hroute : RoutingWF B h t) (hwf : WF B t) :
    ((∃ v, (k, v) ∈ entriesList B t) →
      (find B h t k).bucket = getBucketFromHash B (h k) ∧
      (getIter t (find B h t k)).1 = k ∧
      getIter t (find B h t k) ∈ entriesList B t) ∧
    ((∀ c ∈ entriesList B t, c.1 ≠ k) → find B h t k = endIter B t) := by
  have hbl : getBucketFromHash B (h k) < numBuckets B := getBucketFromHash_lt B (h k)
  constructor
  · rintro ⟨v, hv⟩
    unfold entriesList at hv
    rw [List.mem_flatMap] at hv
    obtain ⟨i, hi, hmem⟩ := hv
    have hi' : i < numBuckets B := List.mem_range.1 hi
    have hri : getBucketFromHash B (h k) = i := by
      have := hroute i hi (k, v) hmem
      simpa using this
    have hiwf : (t.bucket i).WF := by
      have hmemi : t.bucket i ∈ t.impls := by
        have hlen2 : t.impls.length = numBuckets B := hwf.1
        unfold TwoLevelHashTable.bucket
        exact list_getD_mem {} t.impls i (by omega)
      exact hwf.2 _ hmemi
    obtain ⟨j, hj1, hj2⟩ := Impl.findIdx_mem_wf (t.bucket i) k v hiwf hmem
    have hfind : find B h t k = ⟨t, getBucketFromHash B (h k), j⟩ := by
      simp only [find, hri, hj1]
    rw [hfind]
    refine ⟨rfl, ?_, ?_⟩
    · show ((t.bucket (getBucketFromHash B (h k))).toList.getD j (0, 0)).1 = k
      rw [hri, hj2]
    · show (t.bucket (getBucketFromHash B (h k))).toList.getD j (0, 0) ∈
        entriesList B t
      rw [hri, hj2]
      exact mem_entriesList_of_bucket B t i (k, v) hi' hmem
  · intro habs
    have habsb : ∀ c ∈ (t.bucket (getBucketFromHash B (h k))).toList, c.1 ≠ k :=
      fun c hc => habs c (mem_entriesList_of_bucket B t _ c hbl hc)
    have hnone := Impl.findIdx_none_of_absent _ k habsb
    simp only [find, hnone]

/-- Closed witness for C8 at a concrete table: a present key is found in its
routed shard, an absent key yields the end cursor. -/
theorem C8_witness :
    ((find 1 (fun _ => 0) ⟨[⟨true, 7, [(2, 9)]⟩, {}]⟩ 2).bucket =
        getBucketFromHash 1 ((fun _ => (0 : Nat)) 2) ∧
      (getIter ⟨[⟨true, 7, [(2, 9)]⟩, {}]⟩
          (find 1 (fun _ => 0) ⟨[⟨true, 7, [(2, 9)]⟩, {}]⟩ 2)).1 = 2) ∧
    find 1 (fun _ => 0) ⟨[⟨true, 7, [(2, 9)]⟩, {}]⟩ 3 =
      endIter 1 ⟨[⟨true, 7, [(2, 9)]⟩, {}]⟩ := by
  have h1 := C8_find 1 (fun _ => 0) ⟨[⟨true, 7, [(2, 9)]⟩, {}]⟩ 2
    (by decide) (by decide)
  have h2 := C8_find 1 (fun _ => 0) ⟨[⟨true, 7, [(2, 9)]⟩, {}]⟩ 3
    (by decide) (by decide)
  exact ⟨⟨(h1.1 ⟨9, by decide⟩).1, (h1.1 ⟨9, by decide⟩).2.1⟩,
    h2.2 (by decide)⟩

/-! ## The converting constructor -/

theorem sum_range_map_zero_of (n : Nat) (f : Nat → Nat)
    (hf : ∀ i, i < n → f i = 0) : ((List.range n).map f).sum = 0 := by
  apply List.sum_eq_zero
  intro x hx
  rw [List.mem_map] at hx
  obtain ⟨i, hi, rfl⟩ := hx
  exact hf i (List.mem_range.1 hi)

theorem sum_range_map_add (n : Nat) (f g : Nat → Nat) :
    ((List.range n).map (fun i => f i + g i)).sum =
      ((List.range n).map f).sum + ((List.range n).map g).sum := by
  induction n with
  | zero => simp
  | succ n ih =>
    rw [List.range_succ]
    simp only [List.map_append, List.sum_append, List.map_cons, List.map_nil,
      List.sum_cons, List.sum_nil]
    omega

theorem sum_range_indicator (n x : Nat) (hx : x < n) :
    ((List.range n).map (fun i => if x = i then 1 else 0)).sum = 1 := by
  induction n with
  | zero => omega
  | succ n ih =>
    rw [List.range_succ]
    simp only [List.map_append, List.sum_append, List.map_cons, List.map_nil,
      List.sum_cons, List.sum_nil]
    by_cases hxn : x = n
    · rw [sum_range_map_zero_of n _ (fun i hi => by simp; omega)]
      simp [hxn]
    · rw [ih (by omega)]
      simp [hxn]

theorem sum_range_filter_length (n : Nat) (f : Nat → Nat) :
    ∀ cs : List (Nat × Nat), (∀ c ∈ cs, f c.1 < n) →
    ((List.range n).map
      (fun i => (cs.filter (fun c => f c.1 == i)).length)).sum = cs.length
  | [], _ => by
    rw [sum_range_map_zero_of n _ (fun i _ => by simp)]
    rfl
  | c :: cs, hall => by
    have hstep : ∀ i, ((c :: cs).filter (fun c => f c.1 == i)).length =
        (if f c.1 = i then 1 else 0) +
          (cs.filter (fun c => f c.1 == i)).length := by
      intro i
      rw [List.filter_cons]
      by_cases hfc : f c.1 = i
      · simp [hfc]
        omega
      · simp [hfc]
    have hcongr : (List.range n).map
        (fun i => ((c :: cs).filter (fun c => f c.1 == i)).length) =
        (List.range n).map (fun i => (if f c.1 = i then 1 else 0) +
          (cs.filter (fun c => f c.1 == i)).length) :=
      List.map_congr_left (fun i _ => hstep i)
    rw [hcongr, sum_range_map_add, sum_range_indicator n (f c.1)
      (hall c (List.mem_cons_self c cs)),
      sum_range_filter_length n f cs
        (fun d hd => hall d (List.mem_cons_of_mem c hd))]
    simp [Nat.add_comm]

namespace TwoLevelHashTable

theorem insert_zero_emptyTable (B : Nat) (h : Nat → Nat) (zv : Nat) :
    (insert B h (emptyTable B) (0, zv)).1 =
      (emptyTable B).setBucket (getBucketFromHash B (h 0))
        (⟨true, zv, []⟩ : Impl) := by
  have h1 : ({} : Impl).emplace 0 = (⟨true, 0, []⟩, true) := rfl
  have h2 : (⟨true, 0, []⟩ : Impl).setMapped 0 zv = ⟨true, zv, []⟩ := rfl
  simp only [TwoLevelHashTable.insert, emplaceHashed, bucket_emptyTable, h1,
    if_pos]
  rw [bucket_setBucket, if_pos ⟨rfl, by
    rw [length_emptyTable]; exact getBucketFromHash_lt B (h 0)⟩]
  rw [h2, setBucket_setBucket]

theorem length_foldl_insertFromCell (B : Nat) (h : Nat → Nat) :
    ∀ (cs : List (Nat × Nat)) (t : TwoLevelHashTable),
    (cs.foldl (fun t c => insertFromCell B h t c) t).impls.length =
      t.impls.length
  | [], t => rfl
  | c :: cs, t => by
    rw [List.foldl_cons, length_foldl_insertFromCell B h cs]
    simp [insertFromCell, length_setBucket]

theorem foldl_insertFromCell_bucket (B : Nat) (h : Nat → Nat) :
    ∀ (cs : List (Nat × Nat)) (t : TwoLevelHashTable) (i : Nat),
    i < numBuckets B → t.impls.length = numBuckets B →
    (cs.foldl (fun t c => insertFromCell B h t c) t).bucket i =
      ⟨(t.bucket i).hasZero, (t.bucket i).zeroVal,
        (t.bucket i).cells ++
          cs.filter (fun c => getBucketFromHash B (h c.1) == i)⟩
  | [], t, i, _, _ => by simp
  | c :: cs, t, i, hi, hlen => by
    rw [List.foldl_cons]
    have hlen' : (insertFromCell B h t c).impls.length = numBuckets B := by
      simp [insertFromCell, length_setBucket, hlen]
    rw [foldl_insertFromCell_bucket B h cs (insertFromCell B h t c) i hi hlen']
    have hroute : getBucketFromHash B (h c.1) < numBuckets B :=
      getBucketFromHash_lt B (h c.1)
    by_cases hri : getBucketFromHash B (h c.1) = i
    · have hb : (insertFromCell B h t c).bucket i =
          ⟨(t.bucket i).hasZero, (t.bucket i).zeroVal,
            (t.bucket i).cells ++ [c]⟩ := by
        simp only [insertFromCell]
        rw [hri, bucket_setBucket, if_pos ⟨rfl, by omega⟩]
        rw [show (t.bucket i).insertUniqueNonZero c =
          ⟨(t.bucket i).hasZero, (t.bucket i).zeroVal,
            (t.bucket i).cells ++ [c]⟩ from rfl]
      rw [hb]
      rw [List.filter_cons, if_pos (by simp [hri])]
      simp
    · have hb : (insertFromCell B h t c).bucket i = t.bucket i := by
        simp only [insertFromCell]
        rw [bucket_setBucket, if_neg (by
          intro hcon
          exact hri hcon.1.symm)]
      rw [hb]
      rw [List.filter_cons, if_neg (by simp [hri])]

theorem ofSource_eq_zero (B : Nat) (h : Nat → Nat) (src : Impl)
    (hz : src.hasZero = true) :
    ofSource B h src = src.cells.foldl (fun t c => insertFromCell B h t c)
      (insert B h (emptyTable B) (0, src.zeroVal)).1 := by
  unfold ofSource
  rw [show src.toList = (0, src.zeroVal) :: src.cells from by
    simp [Impl.toList, hz]]
  rfl

theorem ofSource_eq_nonzero (B : Nat) (h : Nat → Nat) (src : Impl)
    (hz : src.hasZero = false) (hwf : src.WF) :
    ofSource B h src =
      src.cells.foldl (fun t c => insertFromCell B h t c) (emptyTable B) := by
  unfold ofSource
  rw [show src.toList = src.cells from by simp [Impl.toList, hz]]
  cases hc : src.cells with
  | nil => rfl
  | cons c rest =>
    have hk : ¬c.1 = 0 := hwf.1 c (by rw [hc]; exact List.mem_cons_self c rest)
    simp only [if_neg hk]

/-- Full characterization of the converting constructor: for a well-formed
source, shard `i` of the result holds the sentinel slot exactly when the
source has a sentinel routed to `i`, and exactly the source cells routed to
`i`, in source order. -/
theorem ofSource_bucket (B : Nat) (h : Nat → Nat) (src : Impl) (hwf : src.WF)
    (i : Nat) (hi : i < numBuckets B) :
    (ofSource B h src).bucket i =
      ⟨src.hasZero && (getBucketFromHash B (h 0) == i),
        if (src.hasZero && (getBucketFromHash B (h 0) == i)) = true
          then src.zeroVal else 0,
        src.cells.filter (fun c => getBucketFromHash B (h c.1) == i)⟩ := by
  by_cases hz : src.hasZero = true
  · rw [ofSource_eq_zero B h src hz, insert_zero_emptyTable]
    rw [foldl_insertFromCell_bucket B h src.cells _ i hi
      (by rw [length_setBucket, length_emptyTable])]
    rw [bucket_setBucket]
    by_cases hri : getBucketFromHash B (h 0) = i
    · rw [if_pos ⟨hri.symm, by
        rw [length_emptyTable]; exact getBucketFromHash_lt B (h 0)⟩]
      simp [hz, hri]
    · rw [if_neg (fun hcon => hri hcon.1.symm), bucket_emptyTable]
      simp [hz, hri]
  · rw [Bool.not_eq_true] at hz
    rw [ofSource_eq_nonzero B h src hz hwf]
    rw [foldl_insertFromCell_bucket B h src.cells _ i hi (length_emptyTable B)]
    rw [bucket_emptyTable]
    simp [hz]

theorem length_ofSource (B : Nat) (h : Nat → Nat) (src : Impl) :
    (ofSource B h src).impls.length = numBuckets B := by
  unfold ofSource
  cases htl : src.toList with
  | nil =>
    simp only
    rw [length_foldl_insertFromCell, length_emptyTable]
  | cons c rest =>
    simp only
    by_cases hk : c.1 = 0
    · rw [if_pos hk, length_foldl_insertFromCell]
      have := insert_zero_emptyTable B h c.2
      rw [show (0, c.2) = c from by rw [← hk]] at this
      rw [this, length_setBucket, length_emptyTable]
    · rw [if_neg hk, length_foldl_insertFromCell, length_emptyTable]

end TwoLevelHashTable

/-- C5: converting a flat table with N uniquely-keyed entries yields a
sharded table with `size() == N`, in which every source entry is reachable by
`find` (returning that entry, at shard index `shard_index(hash(key))`), and
every stored entry sits in the shard given by the routing function applied to
its hash. -/
theorem C5_converting_constructor (B : Nat) (h : Nat → Nat) (src : Impl)
    (hwf : src.WF) :
    size B (ofSource B h src) = src.size ∧
    RoutingWF B h (ofSource B h src) ∧
    (∀ c ∈ src.toList,
      (find B h (ofSource B h src) c.1).bucket = getBucketFromHash B (h c.1) ∧
      getIter (ofSource B h src) (find B h (ofSource B h src) c.1) = c) := by
  refine ⟨?_, ?_, ?_⟩
  · -- size
    unfold size
    have hcongr : (List.range (numBuckets B)).map
        (fun i => ((ofSource B h src).bucket i).size) =
      (List.range (numBuckets B)).map
        (fun i =>
          (if (src.hasZero && (getBucketFromHash B (h 0) == i)) = true
            then 1 else 0) +
          (src.cells.filter
            (fun c => getBucketFromHash B (h c.1) == i)).length) := by
      apply List.map_congr_left
      intro i hi
      rw [ofSource_bucket B h src hwf i (List.mem_range.1 hi)]
      rfl
    rw [hcongr, sum_range_map_add]
    have hflt := sum_range_filter_length (numBuckets B)
      (fun k => getBucketFromHash B (h k)) src.cells
      (fun c _ => getBucketFromHash_lt B (h c.1))
    simp only at hflt
    rw [hflt]
    by_cases hz : src.hasZero = true
    · have hind : (List.range (numBuckets B)).map
          (fun i => if (src.hasZero && (getBucketFromHash B (h 0) == i)) = true
            then 1 else 0) =
          (List.range (numBuckets B)).map
            (fun i => if getBucketFromHash B (h 0) = i then 1 else 0) := by
        apply List.map_congr_left
        intro i _
        rw [hz]
        by_cases hri : getBucketFromHash B (h 0) = i
        · simp [hri]
        · simp [hri]
      rw [hind, sum_range_indicator (numBuckets B) (getBucketFromHash B (h 0))
        (getBucketFromHash_lt B (h 0))]
      simp [Impl.size, hz]
    · have hind : (List.range (numBuckets B)).map
          (fun i => if (src.hasZero && (getBucketFromHash B (h 0) == i)) = true
            then 1 else 0) =
          (List.range (numBuckets B)).map (fun _ => 0) := by
        apply List.map_congr_left
        intro i _
        rw [Bool.not_eq_true] at hz
        simp [hz]
      rw [hind, sum_range_map_zero_of (numBuckets B) _ (fun _ _ => rfl)]
      rw [Bool.not_eq_true] at hz
      simp [Impl.size, hz]
  · -- routing invariant
    intro i hi c hc
    have hi' : i < numBuckets B := List.mem_range.1 hi
    rw [ofSource_bucket B h src hwf i hi'] at hc
    simp only [Impl.toList, List.mem_append] at hc
    rcases hc with hc | hc
    · by_cases hzb : (src.hasZero && (getBucketFromHash B (h 0) == i)) = true
      · rw [if_pos hzb] at hc
        simp only [List.mem_singleton] at hc
        have hb0 : getBucketFromHash B (h 0) = i := by
          have hzb' := hzb
          rw [Bool.and_eq_true] at hzb'
          exact beq_iff_eq.1 hzb'.2
        rw [hc]
        exact hb0
      · rw [if_neg hzb] at hc
        simp at hc
    · have := List.mem_filter.1 hc
      simpa using this.2
  · -- find
    intro c hc
    obtain ⟨k, v⟩ := c
    simp only [Impl.toList, List.mem_append] at hc
    rcases hc with hc | hc
    · -- the sentinel entry
      by_cases hz : src.hasZero = true
      · rw [if_pos hz] at hc
        simp only [List.mem_singleton] at hc
        have hk0 : k = 0 ∧ v = src.zeroVal := by
          constructor
          · exact congrArg Prod.fst hc
          · exact congrArg Prod.snd hc
        obtain ⟨rfl, rfl⟩ := hk0
        have hb0lt : getBucketFromHash B (h 0) < numBuckets B :=
          getBucketFromHash_lt B (h 0)
        have hbchar := ofSource_bucket B h src hwf (getBucketFromHash B (h 0))
          hb0lt
        have hzb : (src.hasZero &&
            (getBucketFromHash B (h 0) == getBucketFromHash B (h 0))) = true := by
          simp [hz]
        rw [hzb] at hbchar
        have hidx : ((ofSource B h src).bucket
            (getBucketFromHash B (h 0))).findIdx 0 = some 0 := by
          rw [hbchar]
          simp [Impl.findIdx]
        have hfind : find B h (ofSource B h src) 0 =
            ⟨ofSource B h src, getBucketFromHash B (h 0), 0⟩ := by
          simp only [find, hidx]
        rw [hfind]
        refine ⟨rfl, ?_⟩
        show ((ofSource B h src).bucket
          (getBucketFromHash B (h 0))).toList.getD 0 (0, 0) = (0, src.zeroVal)
        rw [hbchar]
        simp [Impl.toList, List.getD]
      · rw [if_neg hz] at hc
        simp at hc
    · -- a non-zero cell
      have hk : k ≠ 0 := hwf.1 (k, v) hc
      have hilt : getBucketFromHash B (h k) < numBuckets B :=
        getBucketFromHash_lt B (h k)
      have hbchar := ofSource_bucket B h src hwf (getBucketFromHash B (h k)) hilt
      have hfilter_wf1 : ∀ d ∈ src.cells.filter
          (fun c => getBucketFromHash B (h c.1) == getBucketFromHash B (h k)),
          d.1 ≠ 0 :=
        fun d hd => hwf.1 d (List.mem_of_mem_filter hd)
      have hfilter_wf2 : ((src.cells.filter (fun c =>
          getBucketFromHash B (h c.1) == getBucketFromHash B (h k))).map
          Prod.fst).Nodup :=
        List.Nodup.sublist ((List.filter_sublist _).map Prod.fst) hwf.2
      have himplwf : ((ofSource B h src).bucket
          (getBucketFromHash B (h k))).WF := by
        rw [hbchar]
        exact ⟨hfilter_wf1, hfilter_wf2⟩
      have hmem : (k, v) ∈ ((ofSource B h src).bucket
          (getBucketFromHash B (h k))).toList := by
        rw [hbchar]
        simp only [Impl.toList]
        apply List.mem_append_right
        apply List.mem_filter.2
        exact ⟨hc, by simp⟩
      obtain ⟨j, hj1, hj2⟩ := Impl.findIdx_mem_wf _ k v himplwf hmem
      have hfind : find B h (ofSource B h src) k =
          ⟨ofSource B h src, getBucketFromHash B (h k), j⟩ := by
        simp only [find, hj1]
      rw [hfind]
      exact ⟨rfl, hj2⟩

/-- Closed witness for C5 at a concrete flat source table. -/
theorem C5_witness :
    size 1 (ofSource 1 (fun _ => 0) ⟨true, 7, [(5, 9)]⟩) =
      (⟨true, 7, [(5, 9)]⟩ : Impl).size ∧
    RoutingWF 1 (fun _ => 0) (ofSource 1 (fun _ => 0) ⟨true, 7, [(5, 9)]⟩) ∧
    getIter (ofSource 1 (fun _ => 0) ⟨true, 7, [(5, 9)]⟩)
        (find 1 (fun _ => 0) (ofSource 1 (fun _ => 0) ⟨true, 7, [(5, 9)]⟩) 5) =
      (5, 9) := by
  have hth := C5_converting_constructor 1 (fun _ => 0) ⟨true, 7, [(5, 9)]⟩
    (by decide)
  exact ⟨hth.1, hth.2.1, (hth.2.2 (5, 9) (by decide)).2⟩

set_option maxRecDepth 1000000 in
/-- Counterexample to C6 as stated: a flat table whose first iterated entry
is the sentinel (zero-key) entry, converted with a hash function that routes
the sentinel to shard 1 while another entry routes to shard 0.  The composite
cursor of the resulting sharded table yields the non-sentinel entry `(5, 9)`
first, not the sentinel `(0, 7)`. -/
theorem C6_counterexample :
    (⟨true, 7, [(5, 9)]⟩ : Impl).toList.head? = some (0, 7) ∧
    (traverseFrom 8
        (ofSource 8 (fun k => if k = 0 then 16777216 else 0) ⟨true, 7, [(5, 9)]⟩)
        (size 8 (ofSource 8 (fun k => if k = 0 then 16777216 else 0)
          ⟨true, 7, [(5, 9)]⟩) + 1)
        (begin 8 (ofSource 8 (fun k => if k = 0 then 16777216 else 0)
          ⟨true, 7, [(5, 9)]⟩))).head? = some (5, 9) ∧
    ¬ (traverseFrom 8
        (ofSource 8 (fun k => if k = 0 then 16777216 else 0) ⟨true, 7, [(5, 9)]⟩)
        (size 8 (ofSource 8 (fun k => if k = 0 then 16777216 else 0)
          ⟨true, 7, [(5, 9)]⟩) + 1)
        (begin 8 (ofSource 8 (fun k => if k = 0 then 16777216 else 0)
          ⟨true, 7, [(5, 9)]⟩))).head? = some (0, 7) := by
  have h2 : (traverseFrom 8
      (ofSource 8 (fun k => if k = 0 then 16777216 else 0) ⟨true, 7, [(5, 9)]⟩)
      (size 8 (ofSource 8 (fun k => if k = 0 then 16777216 else 0)
        ⟨true, 7, [(5, 9)]⟩) + 1)
      (begin 8 (ofSource 8 (fun k => if k = 0 then 16777216 else 0)
        ⟨true, 7, [(5, 9)]⟩))).head? = some (5, 9) := by decide
  refine ⟨rfl, h2, ?_⟩
  rw [h2]
  decide

/-- C6 as amended: converting a flat table whose first iterated entry is the
sentinel yields a sharded table whose composite cursor yields the sentinel
entry first, provided the routing function sends the sentinel's hash to a
shard index not greater than that of any other entry (the counterexample
shows the claim fails without this proviso, since the sentinel is routed by
its own hash like any other entry). -/
theorem C6_sentinel_first_amended (B : Nat) (h : Nat → Nat) (src : Impl)
    (hwf : src.WF) (hz : src.hasZero = true)
    (hmin : ∀ c ∈ src.cells,
      getBucketFromHash B (h 0) ≤ getBucketFromHash B (h c.1)) :
    src.toList.head? = some (0, src.zeroVal) ∧
    (traverseFrom B (ofSource B h src) (size B (ofSource B h src) + 1)
        (begin B (ofSource B h src))).head? = some (0, src.zeroVal) := by
  constructor
  · simp [Impl.toList, hz]
  · rw [traverse_begin_eq_entries, entriesList_eq_entriesFrom]
    have hb0lt : getBucketFromHash B (h 0) < numBuckets B :=
      getBucketFromHash_lt B (h 0)
    have hemptyPrefix : ∀ j, 0 ≤ j → j < getBucketFromHash B (h 0) →
        ((ofSource B h src).bucket j).empty = true := by
      intro j _ hj
      have hjlt : j < numBuckets B := by omega
      rw [ofSource_bucket B h src hwf j hjlt]
      have hzb : (src.hasZero && (getBucketFromHash B (h 0) == j)) = false := by
        simp [hz]
        omega
      have hfiltnil : src.cells.filter
          (fun c => getBucketFromHash B (h c.1) == j) = [] := by
        rw [List.filter_eq_nil_iff]
        intro c hc
        simp
        have := hmin c hc
        omega
      simp [Impl.empty, hzb, hfiltnil]
    have hpre := entriesFrom_empty_prefix (ofSource B h src) (numBuckets B) 0
      (getBucketFromHash B (h 0)) (by omega) (by omega) hemptyPrefix
    rw [hpre]
    rw [show 0 + numBuckets B - getBucketFromHash B (h 0) =
      (numBuckets B - getBucketFromHash B (h 0) - 1) + 1 from by omega]
    rw [show entriesFrom (ofSource B h src)
        ((numBuckets B - getBucketFromHash B (h 0) - 1) + 1)
        (getBucketFromHash B (h 0)) =
      ((ofSource B h src).bucket (getBucketFromHash B (h 0))).toList ++
        entriesFrom (ofSource B h src)
          (numBuckets B - getBucketFromHash B (h 0) - 1)
          (getBucketFromHash B (h 0) + 1) from rfl]
    rw [ofSource_bucket B h src hwf _ hb0lt]
    simp [Impl.toList, hz]

/-- Closed witness for the amended C6 at a concrete flat source table. -/
theorem C6_amended_witness :
    (traverseFrom 1 (ofSource 1 (fun _ => 0) ⟨true, 7, [(5, 9)]⟩)
        (size 1 (ofSource 1 (fun _ => 0) ⟨true, 7, [(5, 9)]⟩) + 1)
        (begin 1 (ofSource 1 (fun _ => 0) ⟨true, 7, [(5, 9)]⟩))).head? =
      some (0, 7) :=
  (C6_sentinel_first_amended 1 (fun _ => 0) ⟨true, 7, [(5, 9)]⟩ (by decide)
    (by decide) (by decide)).2

/-! ## Serialization -/

theorem canonImpl_toList (u : Impl) : (canonImpl u).toList = u.toList := by
  by_cases hz : u.hasZero = true
  · simp [canonImpl, Impl.toList, hz]
  · rw [Bool.not_eq_true] at hz
    simp [canonImpl, Impl.toList, hz]

theorem canonImpl_size (u : Impl) : (canonImpl u).size = u.size := by
  simp [canonImpl, Impl.size]

theorem readCells_tokens : ∀ (l : List (Nat × Nat)) (acc : Impl)
    (rest : List Token),
    Impl.readCells l.length acc (l.map (fun c => Token.cell c.1 c.2) ++ rest) =
      some (l.foldl (fun t c => t.insertCell c) acc, rest)
  | [], acc, rest => rfl
  | c :: l, acc, rest => by
    simp only [List.length_cons, List.map_cons, List.cons_append,
      Impl.readCells, List.foldl_cons]
    exact readCells_tokens l (acc.insertCell (c.1, c.2)) rest

theorem foldl_insertCell : ∀ (cs : List (Nat × Nat)) (t : Impl),
    (∀ c ∈ cs, c.1 ≠ 0) →
    (t.cells.map Prod.fst ++ cs.map Prod.fst).Nodup →
    cs.foldl (fun t c => t.insertCell c) t =
      ⟨t.hasZero, t.zeroVal, t.cells ++ cs⟩
  | [], t, _, _ => by simp
  | c :: cs, t, hnz, hnd => by
    have hk : c.1 ≠ 0 := hnz c (List.mem_cons_self c cs)
    have hnotmem : ∀ d ∈ t.cells, d.1 ≠ c.1 := by
      intro d hd hcon
      rw [List.map_cons, List.nodup_append] at hnd
      exact hnd.2.2 (List.mem_map.2 ⟨d, hd, rfl⟩)
        (by rw [hcon]; exact List.mem_cons_self _ _)
    have hany : t.cells.any (fun d => d.1 == c.1) = false := by
      rw [List.any_eq_false]
      intro d hd
      simpa using hnotmem d hd
    have hstep : t.insertCell c = ⟨t.hasZero, t.zeroVal, t.cells ++ [c]⟩ := by
      simp [Impl.insertCell, hk, hany]
    rw [List.foldl_cons, hstep]
    rw [foldl_insertCell cs ⟨t.hasZero, t.zeroVal, t.cells ++ [c]⟩
      (fun d hd => hnz d (List.mem_cons_of_mem c hd))
      (by
        simp only [List.map_append, List.map_cons, List.map_nil]
        have heq : (t.cells.map Prod.fst ++ [c.1]) ++ cs.map Prod.fst =
            t.cells.map Prod.fst ++ c.1 :: cs.map Prod.fst := by simp
        rw [heq]
        rw [List.map_cons] at hnd
        exact hnd)]
    simp

theorem foldl_insertCell_toList (u : Impl) (hwf : u.WF) :
    u.toList.foldl (fun t c => t.insertCell c) {} = canonImpl u := by
  by_cases hz : u.hasZero = true
  · rw [show u.toList = (0, u.zeroVal) :: u.cells from by simp [Impl.toList, hz]]
    rw [List.foldl_cons]
    rw [show ({} : Impl).insertCell (0, u.zeroVal) =
      ⟨true, u.zeroVal, []⟩ from rfl]
    rw [foldl_insertCell u.cells ⟨true, u.zeroVal, []⟩ hwf.1
      (by simpa using hwf.2)]
    simp [canonImpl, hz]
  · rw [Bool.not_eq_true] at hz
    rw [show u.toList = u.cells from by simp [Impl.toList, hz]]
    rw [foldl_insertCell u.cells {} hwf.1 (by simpa using hwf.2)]
    simp [canonImpl, hz]

theorem Impl.read_write (u : Impl) (hwf : u.WF) (t0 : Impl)
    (rest : List Token) :
    Impl.read t0 (u.write ++ rest) = some (canonImpl u, rest) := by
  unfold Impl.write Impl.read
  simp only [List.cons_append]
  rw [show u.size = u.toList.length from (Impl.length_toList u).symm]
  rw [readCells_tokens u.toList {} rest]
  rw [foldl_insertCell_toList u hwf]

theorem Impl.readText_eq_read (t0 : Impl) (s : List Token) :
    Impl.readText t0 s = Impl.read t0 s := rfl

theorem Impl.writeText_eq_write (u : Impl) : u.writeText = u.write := rfl

theorem Impl.write_ne_nil (u : Impl) :
    u.write = Token.nat u.size :: u.toList.map (fun c => Token.cell c.1 c.2) :=
  rfl

namespace TwoLevelHashTable

theorem bucket_wf_of_WF (B : Nat) (u : TwoLevelHashTable) (hwf : WF B u)
    (i : Nat) (hi : i < numBuckets B) : (u.bucket i).WF := by
  have hlen : u.impls.length = numBuckets B := hwf.1
  have hmem : u.bucket i ∈ u.impls := by
    unfold bucket
    exact list_getD_mem {} u.impls i (by omega)
  exact hwf.2 _ hmem

theorem write_eq_concatPayloads (B : Nat) (u : TwoLevelHashTable) :
    write B u = concatPayloads u 0 (numBuckets B) := by
  unfold write
  rw [List.range_eq_range']
  suffices h : ∀ (n i : Nat),
      (List.range' i n).flatMap (fun j => (u.bucket j).write) =
        concatPayloads u i n from h (numBuckets B) 0
  intro n
  induction n with
  | zero => intro i; rfl
  | succ n ih =>
    intro i
    rw [List.range'_succ]
    simp only [List.flatMap_cons, concatPayloads, ih (i + 1)]

theorem copyFold_length : ∀ (n i : Nat) (t u : TwoLevelHashTable),
    (copyFold t u i n).impls.length = t.impls.length
  | 0, _, _, _ => rfl
  | n + 1, i, t, u => by
    rw [show copyFold t u i (n + 1) =
      copyFold (t.setBucket i (canonImpl (u.bucket i))) u (i + 1) n from rfl]
    rw [copyFold_length n (i + 1)]
    exact length_setBucket t i _

theorem copyFold_bucket : ∀ (n i : Nat) (t u : TwoLevelHashTable) (j : Nat),
    (copyFold t u i n).bucket j =
      if i ≤ j ∧ j < i + n ∧ j < t.impls.length
        then canonImpl (u.bucket j) else t.bucket j
  | 0, i, t, u, j => by
    rw [show copyFold t u i 0 = t from rfl]
    rw [if_neg (by omega)]
  | n + 1, i, t, u, j => by
    rw [show copyFold t u i (n + 1) =
      copyFold (t.setBucket i (canonImpl (u.bucket i))) u (i + 1) n from rfl]
    rw [copyFold_bucket n (i + 1) _ u j]
    rw [length_setBucket, bucket_setBucket]
    by_cases h1 : i + 1 ≤ j ∧ j < i + 1 + n ∧ j < t.impls.length
    · rw [if_pos h1, if_pos (by omega)]
    · rw [if_neg h1]
      by_cases h2 : j = i ∧ i < t.impls.length
      · rw [if_pos h2, if_pos (by omega), h2.1]
      · rw [if_neg h2, if_neg (by omega)]

theorem readLoop_concat (u : TwoLevelHashTable) :
    ∀ (n k i : Nat) (t : TwoLevelHashTable) (rest : List Token),
    (∀ m, m < n → (u.bucket (i + m)).WF) →
    readLoop (n + k) i t (concatPayloads u i n ++ rest) =
      readLoop k (i + n) (copyFold t u i n) rest
  | 0, k, i, t, rest, _ => by
    rw [show concatPayloads u i 0 = [] from rfl]
    rw [show copyFold t u i 0 = t from rfl]
    simp
  | n + 1, k, i, t, rest, hwf => by
    rw [show concatPayloads u i (n + 1) =
      (u.bucket i).write ++ concatPayloads u (i + 1) n from rfl]
    rw [show n + 1 + k = (n + k) + 1 from by omega]
    rw [List.append_assoc]
    rw [show readLoop ((n + k) + 1) i t
        ((u.bucket i).write ++ (concatPayloads u (i + 1) n ++ rest)) =
      (match (t.bucket i).read
          ((u.bucket i).write ++ (concatPayloads u (i + 1) n ++ rest)) with
        | some (impl, s') =>
          readLoop (n + k) (i + 1) (t.setBucket i impl) s'
        | none => none) from rfl]
    rw [Impl.read_write (u.bucket i) (by
      have := hwf 0 (by omega)
      simpa using this)]
    show readLoop (n + k) (i + 1) (t.setBucket i (canonImpl (u.bucket i)))
        (concatPayloads u (i + 1) n ++ rest) =
      readLoop k (i + (n + 1)) (copyFold t u i (n + 1)) rest
    rw [readLoop_concat u n k (i + 1) (t.setBucket i (canonImpl (u.bucket i)))
      rest (fun m hm => by
        have := hwf (m + 1) (by omega)
        rw [show i + (m + 1) = i + 1 + m from by omega] at this
        exact this)]
    rw [show copyFold t u i (n + 1) =
      copyFold (t.setBucket i (canonImpl (u.bucket i))) u (i + 1) n from rfl]
    rw [show i + (n + 1) = i + 1 + n from by omega]

theorem writeText_decompose (B : Nat) (u : TwoLevelHashTable) :
    writeText B u = (u.bucket 0).writeText ++ segsFrom u 1 (maxBucket B) := by
  unfold writeText
  rw [List.range_eq_range']
  have hsegs : ∀ (n i : Nat), 1 ≤ i →
      (List.range' i n).flatMap
        (fun j => (if j ≠ 0 then [Token.ch ','] else []) ++
          (u.bucket j).writeText) = segsFrom u i n := by
    intro n
    induction n with
    | zero => intro i _; rfl
    | succ n ih =>
      intro i hi
      rw [List.range'_succ]
      simp only [List.flatMap_cons]
      rw [if_pos (by omega), ih (i + 1) (by omega)]
      rfl
  have hnum : numBuckets B = maxBucket B + 1 := by
    unfold maxBucket numBuckets
    have : 0 < 2 ^ B := Nat.pos_pow_of_pos B (by omega)
    omega
  rw [hnum]
  rw [show List.range' 0 (maxBucket B + 1) =
    0 :: List.range' 1 (maxBucket B) from rfl]
  simp only [List.flatMap_cons]
  rw [hsegs (maxBucket B) 1 (by omega)]
  simp

theorem readTextLoop_segs (u : TwoLevelHashTable) :
    ∀ (n k i : Nat) (t : TwoLevelHashTable) (rest : List Token),
    1 ≤ i →
    (∀ m, m < n → (u.bucket (i + m)).WF) →
    readTextLoop (n + k) i t (segsFrom u i n ++ rest) =
      readTextLoop k (i + n) (copyFold t u i n) rest
  | 0, k, i, t, rest, _, _ => by
    rw [show segsFrom u i 0 = [] from rfl]
    rw [show copyFold t u i 0 = t from rfl]
    simp
  | n + 1, k, i, t, rest, hi, hwf => by
    rw [show segsFrom u i (n + 1) =
      Token.ch ',' :: ((u.bucket i).writeText ++ segsFrom u (i + 1) n) from rfl]
    rw [show n + 1 + k = (n + k) + 1 from by omega]
    show (match (if i = 0 then some (Token.ch ',' ::
          ((u.bucket i).writeText ++ segsFrom u (i + 1) n) ++ rest)
        else assertChar ',' (Token.ch ',' ::
          ((u.bucket i).writeText ++ segsFrom u (i + 1) n) ++ rest)) with
      | none => (t, none)
      | some s1 =>
        match (t.bucket i).readText s1 with
        | none => (t, none)
        | some (impl, s2) =>
          readTextLoop (n + k) (i + 1) (t.setBucket i impl) s2) =
      readTextLoop k (i + (n + 1)) (copyFold t u i (n + 1)) rest
    rw [if_neg (by omega)]
    rw [show assertChar ',' (Token.ch ',' ::
        ((u.bucket i).writeText ++ segsFrom u (i + 1) n) ++ rest) =
      some (((u.bucket i).writeText ++ segsFrom u (i + 1) n) ++ rest) from by
        simp [assertChar]]
    show (match (t.bucket i).readText
        ((u.bucket i).writeText ++ segsFrom u (i + 1) n ++ rest) with
      | none => (t, none)
      | some (impl, s2) =>
        readTextLoop (n + k) (i + 1) (t.setBucket i impl) s2) =
      readTextLoop k (i + (n + 1)) (copyFold t u i (n + 1)) rest
    rw [Impl.readText_eq_read, Impl.writeText_eq_write, List.append_assoc]
    rw [Impl.read_write (u.bucket i) (by
      have := hwf 0 (by omega)
      simpa using this)]
    show readTextLoop (n + k) (i + 1) (t.setBucket i (canonImpl (u.bucket i)))
        (segsFrom u (i + 1) n ++ rest) =
      readTextLoop k (i + (n + 1)) (copyFold t u i (n + 1)) rest
    rw [readTextLoop_segs u n k (i + 1)
      (t.setBucket i (canonImpl (u.bucket i))) rest (by omega)
      (fun m hm => by
        have := hwf (m + 1) (by omega)
        rw [show i + (m + 1) = i + 1 + m from by omega] at this
        exact this)]
    rw [show copyFold t u i (n + 1) =
      copyFold (t.setBucket i (canonImpl (u.bucket i))) u (i + 1) n from rfl]
    rw [show i + (n + 1) = i + 1 + n from by omega]

theorem numBuckets_eq_maxBucket_succ (B : Nat) :
    numBuckets B = maxBucket B + 1 := by
  unfold maxBucket numBuckets
  have : 0 < 2 ^ B := Nat.pos_pow_of_pos B (by omega)
  omega

end TwoLevelHashTable

theorem flatMap_congr {α β : Type} : ∀ (l : List α) (f g : α → List β),
    (∀ x ∈ l, f x = g x) → l.flatMap f = l.flatMap g
  | [], _, _, _ => rfl
  | a :: l, f, g, h => by
    simp only [List.flatMap_cons]
    rw [h a (List.mem_cons_self a l),
      flatMap_congr l f g (fun x hx => h x (List.mem_cons_of_mem a hx))]

/-- C2: writing a populated table (binary or text) and reading the stream
back into a freshly constructed table with the same shard count yields a
table with the same set of key/value pairs and the same total `size()`. -/
theorem C2_serialization_round_trip (B : Nat) (u : TwoLevelHashTable)
    (hwf : WF B u) :
    (∃ t', read B (emptyTable B) (write B u) = some (t', []) ∧
      (entriesList B t').Perm (entriesList B u) ∧ size B t' = size B u) ∧
    (∃ t', readText B (emptyTable B) (writeText B u) = (t', some []) ∧
      (entriesList B t').Perm (entriesList B u) ∧ size B t' = size B u) := by
  have hbwf : ∀ m, m < numBuckets B → (u.bucket (0 + m)).WF := by
    intro m hm
    have := bucket_wf_of_WF B u hwf m hm
    simpa using this
  have hlen0 : (emptyTable B).impls.length = numBuckets B := length_emptyTable B
  have hbuck : ∀ i, i < numBuckets B →
      (copyFold (emptyTable B) u 0 (numBuckets B)).bucket i =
        canonImpl (u.bucket i) := by
    intro i hi
    rw [copyFold_bucket]
    rw [if_pos ⟨by omega, by omega, by omega⟩]
  have hents : entriesList B (copyFold (emptyTable B) u 0 (numBuckets B)) =
      entriesList B u := by
    unfold entriesList
    apply flatMap_congr
    intro i hi
    rw [hbuck i (List.mem_range.1 hi), canonImpl_toList]
  have hsz : size B (copyFold (emptyTable B) u 0 (numBuckets B)) =
      size B u := by
    unfold size
    apply congrArg List.sum
    apply List.map_congr_left
    intro i hi
    rw [hbuck i (List.mem_range.1 hi), canonImpl_size]
  constructor
  · refine ⟨copyFold (emptyTable B) u 0 (numBuckets B), ?_, hents ▸
      List.Perm.refl _, hsz⟩
    show readLoop (numBuckets B) 0 (emptyTable B) (write B u) =
      some (copyFold (emptyTable B) u 0 (numBuckets B), [])
    have hcall := readLoop_concat u (numBuckets B) 0 0 (emptyTable B) [] hbwf
    rw [Nat.add_zero] at hcall
    rw [write_eq_concatPayloads,
      ← List.append_nil (concatPayloads u 0 (numBuckets B)), hcall]
    rfl
  · refine ⟨copyFold (emptyTable B) u 0 (numBuckets B), ?_, hents ▸
      List.Perm.refl _, hsz⟩
    show readTextLoop (numBuckets B) 0 (emptyTable B) (writeText B u) =
      (copyFold (emptyTable B) u 0 (numBuckets B), some [])
    rw [writeText_decompose]
    rw [numBuckets_eq_maxBucket_succ]
    show (match (if (0 : Nat) = 0 then some ((u.bucket 0).writeText ++
          segsFrom u 1 (maxBucket B))
        else assertChar ',' ((u.bucket 0).writeText ++
          segsFrom u 1 (maxBucket B))) with
      | none => (emptyTable B, none)
      | some s1 =>
        match ((emptyTable B).bucket 0).readText s1 with
        | none => (emptyTable B, none)
        | some (impl, s2) =>
          readTextLoop (maxBucket B) 1 ((emptyTable B).setBucket 0 impl) s2) =
      (copyFold (emptyTable B) u 0 (maxBucket B + 1), some [])
    rw [if_pos rfl]
    show (match ((emptyTable B).bucket 0).readText
        ((u.bucket 0).writeText ++ segsFrom u 1 (maxBucket B)) with
      | none => (emptyTable B, none)
      | some (impl, s2) =>
        readTextLoop (maxBucket B) 1 ((emptyTable B).setBucket 0 impl) s2) =
      (copyFold (emptyTable B) u 0 (maxBucket B + 1), some [])
    rw [Impl.readText_eq_read, Impl.writeText_eq_write]
    rw [Impl.read_write (u.bucket 0) (by
      have := hbwf 0 (by rw [numBuckets_eq_maxBucket_succ]; omega)
      simpa using this)]
    show readTextLoop (maxBucket B) 1
        ((emptyTable B).setBucket 0 (canonImpl (u.bucket 0)))
        (segsFrom u 1 (maxBucket B)) =
      (copyFold (emptyTable B) u 0 (maxBucket B + 1), some [])
    have hcall := readTextLoop_segs u (maxBucket B) 0 1
      ((emptyTable B).setBucket 0 (canonImpl (u.bucket 0))) [] (by omega)
      (fun m hm => by
        have := hbwf (m + 1) (by rw [numBuckets_eq_maxBucket_succ]; omega)
        show (u.bucket (1 + m)).WF
        rw [show (1 : Nat) + m = m + 1 from by omega]
        simpa using this)
    rw [Nat.add_zero] at hcall
    rw [← List.append_nil (segsFrom u 1 (maxBucket B)), hcall]
    rfl

/-- Closed witness for C2 at a concrete table. -/
theorem C2_witness :
    (read 1 (emptyTable 1) (write 1 ⟨[⟨true, 7, [(3, 4)]⟩, {}]⟩)).isSome =
      true ∧
    (readText 1 (emptyTable 1) (writeText 1 ⟨[⟨true, 7, [(3, 4)]⟩, {}]⟩)).2 =
      some [] := by
  obtain ⟨⟨t1, h1, _, _⟩, ⟨t2, h2, _, _⟩⟩ :=
    C2_serialization_round_trip 1 ⟨[⟨true, 7, [(3, 4)]⟩, {}]⟩ (by decide)
  refine ⟨?_, ?_⟩
  · rw [h1]
    rfl
  · rw [h2]

/-! ## Text-format shape and failure -/

theorem payload_no_comma (v : Impl) (tok : Token) (htok : tok ∈ v.writeText) :
    tok.isComma = false := by
  rcases List.mem_cons.1 htok with h | h
  · rw [h]; rfl
  · obtain ⟨c, _, rfl⟩ := List.mem_map.1 h
    rfl

theorem payload_countP (v : Impl) : v.writeText.countP Token.isComma = 0 := by
  rw [List.countP_eq_zero]
  intro tok htok
  simp [payload_no_comma v tok htok]

theorem segsFrom_countP (u : TwoLevelHashTable) :
    ∀ (n i : Nat), (segsFrom u i n).countP Token.isComma = n
  | 0, _ => rfl
  | n + 1, i => by
    rw [show segsFrom u i (n + 1) =
      Token.ch ',' :: ((u.bucket i).writeText ++ segsFrom u (i + 1) n) from rfl]
    rw [List.countP_cons, List.countP_append, payload_countP,
      segsFrom_countP u n (i + 1)]
    rw [if_pos (by decide : (Token.ch ',').isComma = true)]
    omega

theorem getLast?_append_right : ∀ (l1 l2 : List Token), l2 ≠ [] →
    (l1 ++ l2).getLast? = l2.getLast?
  | [], _, _ => rfl
  | a :: l1, l2, h => by
    rw [List.cons_append]
    cases hll : l1 ++ l2 with
    | nil => exact absurd (List.append_eq_nil.1 hll).2 h
    | cons x xs =>
      rw [List.getLast?_cons_cons, ← hll]
      exact getLast?_append_right l1 l2 h

theorem mem_of_getLastTok : ∀ (l : List Token) (a : Token),
    l.getLast? = some a → a ∈ l
  | [], a, h => by simp at h
  | [x], a, h => by
    simp at h
    simp [h]
  | x :: y :: l, a, h => by
    rw [List.getLast?_cons_cons] at h
    exact List.mem_cons_of_mem x (mem_of_getLastTok (y :: l) a h)

theorem payload_getLast (v : Impl) (tok : Token)
    (h : v.writeText.getLast? = some tok) : tok.isComma = false :=
  payload_no_comma v tok (mem_of_getLastTok _ tok h)

theorem payload_ne_nil (v : Impl) : v.writeText ≠ [] := by
  simp [Impl.writeText]

theorem segsFrom_ne_nil (u : TwoLevelHashTable) (i n : Nat) (hn : 1 ≤ n) :
    segsFrom u i n ≠ [] := by
  cases n with
  | zero => omega
  | succ n =>
    rw [show segsFrom u i (n + 1) =
      Token.ch ',' :: ((u.bucket i).writeText ++ segsFrom u (i + 1) n) from rfl]
    simp

theorem segsFrom_getLast (u : TwoLevelHashTable) :
    ∀ (n i : Nat), 1 ≤ n → ∀ tok, (segsFrom u i n).getLast? = some tok →
      tok.isComma = false
  | 0, _, hn, _, _ => by omega
  | n + 1, i, _, tok, htok => by
    rw [show segsFrom u i (n + 1) =
      [Token.ch ','] ++ ((u.bucket i).writeText ++ segsFrom u (i + 1) n)
        from rfl] at htok
    cases n with
    | zero =>
      rw [show segsFrom u (i + 1) 0 = [] from rfl, List.append_nil] at htok
      rw [getLast?_append_right _ _ (payload_ne_nil _)] at htok
      exact payload_getLast _ tok htok
    | succ m =>
      rw [getLast?_append_right _ _ (by
        intro hcon
        exact segsFrom_ne_nil u (i + 1) (m + 1) (by omega)
          (List.append_eq_nil.1 hcon).2)] at htok
      rw [getLast?_append_right _ _
        (segsFrom_ne_nil u (i + 1) (m + 1) (by omega))] at htok
      exact segsFrom_getLast u (m + 1) (i + 1) (by omega) tok htok

/-- C3: `writeText` emits the shard payloads in ascending shard-index order
separated by single comma characters — exactly `2^B - 1` of them, none
leading or trailing — and `readText` reports a parse failure when the comma
expected before shard segment `j` is missing, aborting the read and leaving
the table partially populated: shards `0 .. j-1` hold the parsed entries,
every later shard is still empty. -/
theorem C3_text_format_and_failure (B : Nat) (u : TwoLevelHashTable) (j : Nat)
    (hwf : WF B u) (hj1 : 1 ≤ j) (hj2 : j ≤ maxBucket B) :
    writeText B u = (u.bucket 0).writeText ++ segsFrom u 1 (maxBucket B) ∧
    (writeText B u).countP Token.isComma = maxBucket B ∧
    (∀ tok, (writeText B u).head? = some tok → tok.isComma = false) ∧
    (∀ tok, (writeText B u).getLast? = some tok → tok.isComma = false) ∧
    (readText B (emptyTable B)
        ((u.bucket 0).writeText ++ segsFrom u 1 (j - 1) ++
          (u.bucket j).writeText ++ segsFrom u (j + 1) (maxBucket B - j))).2 =
      none ∧
    (∀ i, i < numBuckets B →
      ((readText B (emptyTable B)
          ((u.bucket 0).writeText ++ segsFrom u 1 (j - 1) ++
            (u.bucket j).writeText ++
            segsFrom u (j + 1) (maxBucket B - j))).1.bucket i).toList =
        if i < j then (u.bucket i).toList else []) := by
  have hbwf : ∀ i, i < numBuckets B → (u.bucket i).WF := bucket_wf_of_WF B u hwf
  have hnumj : j < numBuckets B := by
    rw [numBuckets_eq_maxBucket_succ]
    omega
  have hkey : readText B (emptyTable B)
      ((u.bucket 0).writeText ++ segsFrom u 1 (j - 1) ++
        (u.bucket j).writeText ++ segsFrom u (j + 1) (maxBucket B - j)) =
      (copyFold ((emptyTable B).setBucket 0 (canonImpl (u.bucket 0))) u 1
        (j - 1), none) := by
    show readTextLoop (numBuckets B) 0 (emptyTable B) _ = _
    rw [numBuckets_eq_maxBucket_succ]
    show (match (if (0 : Nat) = 0 then some ((u.bucket 0).writeText ++
          segsFrom u 1 (j - 1) ++ (u.bucket j).writeText ++
          segsFrom u (j + 1) (maxBucket B - j))
        else assertChar ',' ((u.bucket 0).writeText ++
          segsFrom u 1 (j - 1) ++ (u.bucket j).writeText ++
          segsFrom u (j + 1) (maxBucket B - j))) with
      | none => (emptyTable B, none)
      | some s1 =>
        match ((emptyTable B).bucket 0).readText s1 with
        | none => (emptyTable B, none)
        | some (impl, s2) =>
          readTextLoop (maxBucket B) 1 ((emptyTable B).setBucket 0 impl) s2) =
      (copyFold ((emptyTable B).setBucket 0 (canonImpl (u.bucket 0))) u 1
        (j - 1), none)
    rw [if_pos rfl]
    show (match ((emptyTable B).bucket 0).readText
        ((u.bucket 0).writeText ++ segsFrom u 1 (j - 1) ++
          (u.bucket j).writeText ++ segsFrom u (j + 1) (maxBucket B - j)) with
      | none => (emptyTable B, none)
      | some (impl, s2) =>
        readTextLoop (maxBucket B) 1 ((emptyTable B).setBucket 0 impl) s2) =
      (copyFold ((emptyTable B).setBucket 0 (canonImpl (u.bucket 0))) u 1
        (j - 1), none)
    rw [Impl.readText_eq_read, Impl.writeText_eq_write]
    simp only [List.append_assoc]
    rw [Impl.read_write (u.bucket 0) (hbwf 0 (by omega))]
    show readTextLoop (maxBucket B) 1
        ((emptyTable B).setBucket 0 (canonImpl (u.bucket 0)))
        (segsFrom u 1 (j - 1) ++ ((u.bucket j).writeText ++
          segsFrom u (j + 1) (maxBucket B - j))) =
      (copyFold ((emptyTable B).setBucket 0 (canonImpl (u.bucket 0))) u 1
        (j - 1), none)
    have hcall := readTextLoop_segs u (j - 1) (maxBucket B - j + 1) 1
      ((emptyTable B).setBucket 0 (canonImpl (u.bucket 0)))
      ((u.bucket j).writeText ++ segsFrom u (j + 1) (maxBucket B - j))
      (by omega)
      (fun m hm => hbwf (1 + m) (by
        rw [numBuckets_eq_maxBucket_succ]
        omega))
    rw [show j - 1 + (maxBucket B - j + 1) = maxBucket B from by omega] at hcall
    rw [show 1 + (j - 1) = j from by omega] at hcall
    rw [hcall]
    show (match (if j = 0 then some ((u.bucket j).writeText ++
          segsFrom u (j + 1) (maxBucket B - j))
        else assertChar ',' ((u.bucket j).writeText ++
          segsFrom u (j + 1) (maxBucket B - j))) with
      | none => (copyFold ((emptyTable B).setBucket 0 (canonImpl (u.bucket 0)))
          u 1 (j - 1), none)
      | some s1 =>
        match ((copyFold ((emptyTable B).setBucket 0 (canonImpl (u.bucket 0)))
            u 1 (j - 1)).bucket j).readText s1 with
        | none => (copyFold ((emptyTable B).setBucket 0
            (canonImpl (u.bucket 0))) u 1 (j - 1), none)
        | some (impl, s2) =>
          readTextLoop (maxBucket B - j) (j + 1)
            ((copyFold ((emptyTable B).setBucket 0 (canonImpl (u.bucket 0)))
              u 1 (j - 1)).setBucket j impl) s2) =
      (copyFold ((emptyTable B).setBucket 0 (canonImpl (u.bucket 0))) u 1
        (j - 1), none)
    rw [if_neg (by omega)]
    rw [show assertChar ',' ((u.bucket j).writeText ++
      segsFrom u (j + 1) (maxBucket B - j)) = none from rfl]
  have hkey2 : (readText B (emptyTable B)
      ((u.bucket 0).writeText ++ segsFrom u 1 (j - 1) ++
        (u.bucket j).writeText ++ segsFrom u (j + 1) (maxBucket B - j))).1 =
      copyFold ((emptyTable B).setBucket 0 (canonImpl (u.bucket 0))) u 1
        (j - 1) := by
    rw [hkey]
  refine ⟨writeText_decompose B u, ?_, ?_, ?_, by rw [hkey], ?_⟩
  · rw [writeText_decompose, List.countP_append, payload_countP,
      segsFrom_countP]
    omega
  · intro tok htok
    rw [writeText_decompose] at htok
    rw [show (u.bucket 0).writeText = Token.nat (u.bucket 0).size ::
      ((u.bucket 0).toList.map (fun c => Token.cell c.1 c.2)) from rfl] at htok
    rw [List.cons_append] at htok
    simp only [List.head?_cons, Option.some_inj] at htok
    rw [← htok]
    rfl
  · intro tok htok
    rw [writeText_decompose] at htok
    by_cases hmb : maxBucket B = 0
    · rw [hmb, show segsFrom u 1 0 = [] from rfl, List.append_nil] at htok
      exact payload_getLast _ tok htok
    · rw [getLast?_append_right _ _
        (segsFrom_ne_nil u 1 (maxBucket B) (by omega))] at htok
      exact segsFrom_getLast u (maxBucket B) 1 (by omega) tok htok
  · intro i hi
    rw [hkey2, copyFold_bucket]
    by_cases hcase : 1 ≤ i ∧ i < j
    · rw [if_pos ⟨hcase.1, by omega, by
        rw [length_setBucket, length_emptyTable]; omega⟩]
      rw [canonImpl_toList, if_pos hcase.2]
    · by_cases hi0 : i = 0
      · subst hi0
        rw [if_neg (by intro hcon; exact absurd hcon.1 (by omega))]
        rw [bucket_setBucket, if_pos ⟨rfl, by rw [length_emptyTable]; omega⟩]
        rw [canonImpl_toList, if_pos (by omega)]
      · have hij : j ≤ i := by omega
        rw [if_neg (by intro hcon; have := hcon.2.1; omega)]
        rw [bucket_setBucket, if_neg (by intro hcon; exact hi0 hcon.1)]
        rw [bucket_emptyTable, if_neg (by omega)]
        rfl

/-- Closed witness for C3 at a concrete table: the comma count is exactly
`2^B - 1`, and dropping the expected comma makes `readText` fail. -/
theorem C3_witness :
    (writeText 1 ⟨[⟨true, 7, []⟩, ⟨false, 0, [(9, 2)]⟩]⟩).countP
        Token.isComma = maxBucket 1 ∧
    (readText 1 (emptyTable 1)
        (((⟨[⟨true, 7, []⟩, ⟨false, 0, [(9, 2)]⟩]⟩ :
            TwoLevelHashTable).bucket 0).writeText ++
          segsFrom ⟨[⟨true, 7, []⟩, ⟨false, 0, [(9, 2)]⟩]⟩ 1 0 ++
          ((⟨[⟨true, 7, []⟩, ⟨false, 0, [(9, 2)]⟩]⟩ :
            TwoLevelHashTable).bucket 1).writeText ++
          segsFrom ⟨[⟨true, 7, []⟩, ⟨false, 0, [(9, 2)]⟩]⟩ 2 0)).2 =
      none := by
  have hth := C3_text_format_and_failure 1
    ⟨[⟨true, 7, []⟩, ⟨false, 0, [(9, 2)]⟩]⟩ 1 (by decide) (by decide)
    (by decide)
  exact ⟨hth.2.1, hth.2.2.2.2.1⟩

end TwoLevelSpec
